import Mathlib

/-!
Shallow embedding of the patchsoul core memory primitives
(src/core/index.rs, allocation.rs, array.rs, shtick.rs).

Conventions used throughout:
* Rust `i64`/`i16` arithmetic is modelled on `Int`/`Nat`; wherever overflow or a
  cast matters the bound is made explicit (see the comments at each definition).
* A `CountN<T>` stores the arithmetic negation of its logical magnitude; for the
  64-bit instantiation we embed the stored value (`Count.val ≤ 0` in valid
  states), for composite structures (Array, Shtick) we carry the logical
  magnitude as a `Nat`, which is exact for all reachable states.
* The system allocator is nondeterministic; each operation that can call it
  takes an `allocOk : Bool` oracle saying whether the allocator satisfies that
  request (this also covers `Layout::array` failure, which the code folds into
  `OutOfMemory`).
* Fallible Rust functions return `Except`; `expect`/`assert!` panics and debug
  arithmetic-overflow panics are modelled by `Option` (`none` = aborted
  execution).
* Buffer slots are `Option` values: `none` models an uninitialized (or
  moved-out / junk) slot, `some v` an initialized one.
-/

/-- Decidable equality for `Except`, used to evaluate concrete runs of the
fallible operations. -/
instance {ε α : Type _} [DecidableEq ε] [DecidableEq α] : DecidableEq (Except ε α) := fun x y =>
  match x, y with
  | .ok a, .ok b =>
      if h : a = b then .isTrue (by rw [h]) else .isFalse (by intro he; cases he; exact h rfl)
  | .ok _, .error _ => .isFalse (by intro h; cases h)
  | .error _, .ok _ => .isFalse (by intro h; cases h)
  | .error e, .error f =>
      if h : e = f then .isTrue (by rw [h]) else .isFalse (by intro he; cases he; exact h rfl)

/-! ### Count64 (src/core/index.rs, `CountN<i64>`)

The stored representation: `Count.val` is the negation of the logical count.
`MAX` is the magnitude corresponding to `i64::MIN = -2^63`. -/

inductive CountError where
  | TooHigh
  | NonPositive
deriving DecidableEq

structure Count where
  val : Int
deriving DecidableEq

@[simp] theorem Count.val_mk (x : Int) : (Count.mk x).val = x := rfl

namespace Count

/-- `Count::MAX = Self(T::MIN)`, i.e. stored `-2^63`, logical magnitude `2^63`. -/
def MAX : Count := ⟨-9223372036854775808⟩

/-- `Count::MAX_USIZE = (-(i64::MIN + 1)) as usize + 1 = 2^63`. -/
def MAX_USIZE : Nat := 9223372036854775808

/-- `Count::of(value)`: `assert!(value >= 0); Self(-value)`.  The assert is a
precondition carried as a hypothesis by the theorems using `of`. -/
def of (value : Int) : Count := ⟨-value⟩

/-- `Count::from_usize(value)`: fails `TooHigh` when the value exceeds the
maximum representable magnitude `2^63`. -/
def from_usize (value : Nat) : Except CountError Count :=
  if value > MAX_USIZE then .error .TooHigh else .ok ⟨-(value : Int)⟩

/-- `Count::double_or_max(min_value)`:
`if self.0 <= Self::MAX.0 / 2 { MAX } else { Self(T::from(-min_value).min(self.0 * 2)) }`.
Rust `i64` division truncates toward zero, so `MAX.0 / 2 = (-2^63)/2 = -2^62`
exactly; in the second branch `self.0 > -2^62` so `self.0 * 2 > -2^63` and the
multiplication cannot overflow. -/
def double_or_max (c : Count) (minValue : Int) : Count :=
  if c.val ≤ -4611686018427387904 then MAX
  else ⟨min (-minValue) (c.val * 2)⟩

/-- `Count::max_offset()` = `-(self.0 + 1)`. -/
def max_offset (c : Count) : Int := -(c.val + 1)

/-- `Count::contains(offset)` = `offset >= 0 && offset <= self.max_offset()`. -/
def contains (c : Count) (offset : Int) : Bool :=
  decide (0 ≤ offset) && decide (offset ≤ c.max_offset)

/-- `impl Into<usize> for Count`: `(Wrapping(self.max_offset()) + Wrapping(1)) as usize`.
For stored `val ∈ [-2^63, 0]` the i64 wrap at `MAX` and the unsigned cast
cancel, so the result is the logical magnitude `(-val).toNat`. -/
def toUsize (c : Count) : Nat := (-c.val).toNat

end Count

/-! ### Index resolution (src/core/index.rs, `Index::check_offset`) -/

inductive IndexError where
  | EmptySequence
  | OutOfBounds
  | InvalidOrdinal
deriving DecidableEq

structure OffsetCheck where
  offset : Int
  increases_count : Bool
deriving DecidableEq

def OffsetCheck.in_bounds (offset : Int) : OffsetCheck := ⟨offset, false⟩

def OffsetCheck.increases (offset : Int) : OffsetCheck := ⟨offset, true⟩

inductive Index where
  | Of (value : Int)
  | InBounds (value : Int)
  | Wrap (value : Int)
  | Ordinal (count : Count)
deriving DecidableEq

namespace Index

/-- `Index::check_offset(sequence_size)` translated branch by branch.
`usize` casts of the nonnegative quantities involved are exact (`Int.toNat`);
for `Of` with a negative value, `(-value) as usize` equals `-value` even at
`value = i64::MIN` because the i64 negation wrap and the unsigned cast cancel.
The `assert!`s in the `Wrap` `MAX_USIZE` branch hold for every i64 input and
are not separately modelled. `value.rem_euclid(n)` is Euclidean remainder,
i.e. `Int.emod` for a positive modulus. -/
def check_offset (i : Index) (sequence_size : Count) : Except IndexError OffsetCheck :=
  match i with
  | .Of value =>
      let n : Nat := sequence_size.toUsize
      if 0 ≤ value then
        .ok ⟨value, decide (n ≤ value.toNat)⟩
      else if (-value).toNat ≤ n then
        .ok (OffsetCheck.in_bounds ((n : Int) - (-value)))
      else
        .error .OutOfBounds
  | .InBounds value =>
      if sequence_size.contains value then .ok (OffsetCheck.in_bounds value)
      else .error .OutOfBounds
  | .Wrap value =>
      let n : Nat := sequence_size.toUsize
      if n = 0 then .error .EmptySequence
      else if n = Count.MAX_USIZE then
        if 0 ≤ value then .ok (OffsetCheck.in_bounds value)
        else .ok (OffsetCheck.in_bounds ((n : Int) - (-(value + 1)) - 1))
      else
        .ok (OffsetCheck.in_bounds (value % (n : Int)))
  | .Ordinal count =>
      let offset := count.max_offset
      if 0 ≤ offset then
        -- `count > sequence_size` under the reversed (stored) ordering.
        .ok ⟨offset, decide (count.val < sequence_size.val)⟩
      else
        .error .InvalidOrdinal

end Index

/-! Sanity examples mirroring the unit tests in index.rs. -/

example : Index.check_offset (.Of 1) (Count.of 5) = .ok (OffsetCheck.in_bounds 1) := by decide
example : Index.check_offset (.Of (-1)) (Count.of 5) = .ok (OffsetCheck.in_bounds 4) := by decide
example : Index.check_offset (.Of (-6)) (Count.of 5) = .error .OutOfBounds := by decide
example : Index.check_offset (.Of 7) (Count.of 4) = .ok (OffsetCheck.increases 7) := by decide
example : Index.check_offset (.Wrap (-7)) (Count.of 5) = .ok (OffsetCheck.in_bounds 3) := by decide
example : Index.check_offset (.Wrap 7) (Count.of 5) = .ok (OffsetCheck.in_bounds 2) := by decide
example : Index.check_offset (.Wrap 0) (Count.of 0) = .error .EmptySequence := by decide
example : Index.check_offset (.Wrap (-9223372036854775808)) Count.MAX
    = .ok (OffsetCheck.in_bounds 0) := by decide
example : Index.check_offset (.Wrap (-3)) Count.MAX
    = .ok (OffsetCheck.in_bounds 9223372036854775805) := by decide
example : Index.check_offset (.Ordinal (Count.of 1)) (Count.of 0)
    = .ok (OffsetCheck.increases 0) := by decide
example : Index.check_offset (.Ordinal (Count.of 0)) (Count.of 2)
    = .error .InvalidOrdinal := by decide
example : Count.double_or_max (Count.of 0) 1 = Count.of 1 := by decide
example : Count.double_or_max (Count.of 123) 2 = Count.of 246 := by decide
example : Count.double_or_max Count.MAX 5 = Count.MAX := by decide
example : Count.double_or_max (Count.of 9223372036854775802) 6 = Count.MAX := by decide

/-- C4: `Index::Of(i).check_offset(c)` resolves in-bounds at `i` for
`0 ≤ i < c`, in-bounds at `c + i` for `−c ≤ i < 0`, fails `OutOfBounds` for
`i < −c`, and resolves with `increases_count` at `i` for `i ≥ c` (never an
error for `i ≥ 0`).  `c` ranges over all representable counts (`≤ 2^63`) and
`i` over all i64 values. -/
theorem index_of_check_offset_spec (c : Nat) (i : Int)
    (hc : c ≤ 9223372036854775808)
    (hi₁ : -9223372036854775808 ≤ i) (hi₂ : i < 9223372036854775808) :
    (0 ≤ i → i < (c : Int) →
        Index.check_offset (.Of i) ⟨-(c : Int)⟩ = .ok ⟨i, false⟩) ∧
    ((c : Int) ≤ i →
        Index.check_offset (.Of i) ⟨-(c : Int)⟩ = .ok ⟨i, true⟩) ∧
    (-(c : Int) ≤ i → i < 0 →
        Index.check_offset (.Of i) ⟨-(c : Int)⟩ = .ok ⟨(c : Int) + i, false⟩) ∧
    (i < -(c : Int) →
        Index.check_offset (.Of i) ⟨-(c : Int)⟩ = .error .OutOfBounds) := by
  have hto : Count.toUsize ⟨-(c : Int)⟩ = c := by
    simp [Count.toUsize]
  refine ⟨?_, ?_, ?_, ?_⟩
  · intro h0 hlt
    simp only [Index.check_offset, hto, if_pos h0]
    have hd : decide (c ≤ i.toNat) = false := by
      rw [decide_eq_false_iff_not]
      omega
    rw [hd]
  · intro hge
    have h0 : 0 ≤ i := le_trans (by positivity) hge
    simp only [Index.check_offset, hto, if_pos h0]
    have hd : decide (c ≤ i.toNat) = true := by
      rw [decide_eq_true_eq]
      omega
    rw [hd]
  · intro hge hlt
    have h0 : ¬ 0 ≤ i := by omega
    have hin : (-i).toNat ≤ c := by omega
    simp only [Index.check_offset, hto, if_neg h0, if_pos hin, OffsetCheck.in_bounds]
    have : (c : Int) - -i = (c : Int) + i := by ring
    rw [this]
  · intro hlt
    have h0 : ¬ 0 ≤ i := by omega
    have hin : ¬ (-i).toNat ≤ c := by omega
    simp only [Index.check_offset, hto, if_neg h0, if_neg hin]

/-- C4 witness: `Of(-2)` against count 5 resolves in-bounds at `5 + (-2) = 3`. -/
theorem index_of_check_offset_spec_witness :
    Index.check_offset (.Of (-2)) ⟨-5⟩ = .ok ⟨3, false⟩ := by
  have h := (index_of_check_offset_spec 5 (-2) (by norm_num) (by norm_num)
      (by norm_num)).2.2.1 (by norm_num) (by norm_num)
  norm_num at h
  exact h

/-- C5: `Index::Wrap(i).check_offset(c)` fails `EmptySequence` when `c = 0`
and otherwise resolves in-bounds at the Euclidean remainder `i mod c`, which is
non-negative — including the `c = 2^63` case that the code special-cases
because `2^63` is not an `i64`. -/
theorem index_wrap_check_offset_spec (c : Nat) (i : Int)
    (hc : c ≤ 9223372036854775808)
    (hi₁ : -9223372036854775808 ≤ i) (hi₂ : i < 9223372036854775808) :
    (c = 0 → Index.check_offset (.Wrap i) ⟨-(c : Int)⟩ = .error .EmptySequence) ∧
    (0 < c → Index.check_offset (.Wrap i) ⟨-(c : Int)⟩ = .ok ⟨i % (c : Int), false⟩ ∧
        0 ≤ i % (c : Int)) := by
  have hto : Count.toUsize ⟨-(c : Int)⟩ = c := by
    simp [Count.toUsize]
  refine ⟨?_, ?_⟩
  · intro h0
    subst h0
    simp [Index.check_offset, Count.toUsize]
  · intro hpos
    have hne : c ≠ 0 := by omega
    have hnez : ((c : Nat) : Int) ≠ 0 := by exact_mod_cast hne
    refine ⟨?_, Int.emod_nonneg i hnez⟩
    simp only [Index.check_offset, hto, Count.MAX_USIZE]
    rw [if_neg hne]
    by_cases hmax : c = 9223372036854775808
    · rw [if_pos hmax]
      by_cases h0 : 0 ≤ i
      · rw [if_pos h0]
        simp only [OffsetCheck.in_bounds]
        have : i % (c : Int) = i := by
          subst hmax
          rw [Int.emod_eq_of_lt h0 (by exact_mod_cast hi₂)]
        rw [this]
      · rw [if_neg h0]
        simp only [OffsetCheck.in_bounds]
        have : ((c : Nat) : Int) - -(i + 1) - 1 = i % (c : Int) := by
          subst hmax
          push_cast
          omega
        rw [this]
    · rw [if_neg hmax]
      simp only [OffsetCheck.in_bounds]

/-- C5 witness: `Wrap(-7)` against count 5 resolves in-bounds at `3 = -7 mod 5`. -/
theorem index_wrap_check_offset_spec_witness :
    Index.check_offset (.Wrap (-7)) ⟨-5⟩ = .ok ⟨3, false⟩ := by
  have h := ((index_wrap_check_offset_spec 5 (-7) (by norm_num) (by norm_num)
      (by norm_num)).2 (by norm_num)).1
  have e : (-7 : Int) % ((5 : Nat) : Int) = 3 := by decide
  rw [e] at h
  exact h

/-- C6: `double_or_max(min_value)` saturates to `MAX` when the magnitude is
more than half of `MAX = 2^63`, and otherwise returns `max(min_value, 2·m)`;
in particular `of(0).double_or_max(1) = of(1)` and
`of(123).double_or_max(2) = of(246)`.  (At `m = 2^62` exactly, the code's
`≥ half` test saturates, which agrees with the claim's formula since
`2·2^62 = MAX`.)  `min_value` is an i8, hence at most 127. -/
theorem count_double_or_max_spec (m : Nat) (minValue : Int)
    (hm : m ≤ 9223372036854775808) (h1 : 1 ≤ minValue) (h2 : minValue ≤ 127) :
    Count.double_or_max ⟨-(m : Int)⟩ minValue =
      (if 4611686018427387904 < m then Count.MAX
       else ⟨-(max minValue (2 * (m : Int)))⟩) ∧
    Count.double_or_max (Count.of 0) 1 = Count.of 1 ∧
    Count.double_or_max (Count.of 123) 2 = Count.of 246 := by
  refine ⟨?_, by decide, by decide⟩
  rw [Count.double_or_max]
  simp only [Count.val_mk]
  rcases lt_trichotomy m 4611686018427387904 with hlt | heq | hgt
  · rw [if_neg (by omega), if_neg (by omega)]
    simp only [Count.mk.injEq]
    omega
  · subst heq
    rw [if_pos (by norm_num), if_neg (by norm_num)]
    simp only [Count.MAX, Count.mk.injEq]
    omega
  · rw [if_pos (by omega), if_pos (by omega)]

/-- C6 witness: `of(5).double_or_max(2) = of(10)`. -/
theorem count_double_or_max_spec_witness :
    Count.double_or_max ⟨-5⟩ 2 = ⟨-10⟩ := by
  have h := (count_double_or_max_spec 5 2 (by norm_num) (by norm_num) (by norm_num)).1
  norm_num at h
  exact h

/-! ### List slot helpers

Buffers are `List (Option α)`; `l.getD i none` reads slot `i` (`none` beyond
the end).  These small lemmas describe slots of the buffers produced by the
allocation/array operations below. -/

theorem getD_of_length_le {α : Type _} (l : List (Option α)) (i : Nat)
    (h : l.length ≤ i) : l.getD i none = none := by
  induction l generalizing i with
  | nil => simp [List.getD]
  | cons a t ih =>
    cases i with
    | zero => simp at h
    | succ j =>
      simp only [List.length_cons] at h
      simpa [List.getD] using ih j (by omega)

theorem getD_append_left {α : Type _} (l₁ l₂ : List (Option α)) (i : Nat)
    (h : i < l₁.length) : (l₁ ++ l₂).getD i none = l₁.getD i none := by
  induction l₁ generalizing i with
  | nil => simp at h
  | cons a t ih =>
    cases i with
    | zero => simp [List.getD]
    | succ j =>
      simp only [List.length_cons] at h
      simpa [List.getD] using ih j (by omega)

theorem getD_append_right {α : Type _} (l₁ l₂ : List (Option α)) (i : Nat)
    (h : l₁.length ≤ i) : (l₁ ++ l₂).getD i none = l₂.getD (i - l₁.length) none := by
  induction l₁ generalizing i with
  | nil => simp
  | cons a t ih =>
    cases i with
    | zero => simp at h
    | succ j =>
      simp only [List.length_cons] at h ⊢
      simpa [List.getD, Nat.succ_sub_succ] using ih j (by omega)

theorem getD_replicate_none {α : Type _} (n i : Nat) :
    (List.replicate n (none : Option α)).getD i none = none := by
  induction n generalizing i with
  | zero => simp [List.getD]
  | succ k ih =>
    cases i with
    | zero => simp [List.getD, List.replicate]
    | succ j => simp [List.getD, List.replicate]

theorem getD_take {α : Type _} (l : List (Option α)) (n i : Nat)
    (h : i < n) : (l.take n).getD i none = l.getD i none := by
  induction l generalizing n i with
  | nil => simp
  | cons a t ih =>
    cases n with
    | zero => omega
    | succ k =>
      cases i with
      | zero => simp [List.getD]
      | succ j => simpa [List.getD] using ih k j (by omega)

theorem getD_set_self {α : Type _} (l : List (Option α)) (i : Nat) (v : Option α)
    (h : i < l.length) : (l.set i v).getD i none = v := by
  induction l generalizing i with
  | nil => simp at h
  | cons a t ih =>
    cases i with
    | zero => simp [List.getD]
    | succ j =>
      simp only [List.length_cons] at h
      simpa [List.getD] using ih j (by omega)

theorem getD_set_ne {α : Type _} (l : List (Option α)) (i j : Nat) (v : Option α)
    (h : i ≠ j) : (l.set i v).getD j none = l.getD j none := by
  induction l generalizing i j with
  | nil => simp
  | cons a t ih =>
    cases i with
    | zero =>
      cases j with
      | zero => omega
      | succ j' => simp [List.getD]
    | succ i' =>
      cases j with
      | zero => simp [List.getD]
      | succ j' => simpa [List.getD] using ih i' j' (by omega)

/-! ### Allocation (src/core/allocation.rs, `AllocationN<T, C>`)

The raw buffer: a recorded capacity plus one slot per capacity unit.  The code
does not track initialization; the `Option` in each slot is the ghost tracking
that its owners (Array/Shtick) are contractually obliged to maintain.
`allocOk` is the allocator oracle for the one branch that calls
`alloc`/`realloc` (a `false` answer also covers `Layout::array` overflow,
which the code maps to `OutOfMemory` in `layout_of`). -/

inductive AllocationError where
  | OutOfMemory
  | InvalidOffset
deriving DecidableEq

structure Alloc (α : Type _) where
  capacity : Nat
  data : List (Option α)
deriving DecidableEq

/-- `realloc` semantics on the ghost buffer: the first `min(old, new)` slots
are preserved, anything newly acquired is uninitialized. -/
def Alloc.resizeData {α : Type _} (l : List (Option α)) (n : Nat) : List (Option α) :=
  l.take n ++ List.replicate (n - l.length) none

/-- `AllocationN::new()`: zero capacity, no heap memory. -/
def Alloc.new {α : Type _} : Alloc α := ⟨0, []⟩

/-- `AllocationN::mut_capacity` / `allocation_mut_capacity`:
dealloc on target 0 (a no-op if already empty — either way capacity 0 and no
slots), no-op when the target equals the current capacity, otherwise
alloc/realloc.  The capacity is updated iff the change succeeds. -/
def Alloc.mutCapacity {α : Type _} (a : Alloc α) (allocOk : Bool) (newCap : Nat) :
    Except AllocationError Unit × Alloc α :=
  if newCap = 0 then (.ok (), ⟨0, []⟩)
  else if newCap = a.capacity then (.ok (), a)
  else if allocOk then (.ok (), ⟨newCap, Alloc.resizeData a.data newCap⟩)
  else (.error .OutOfMemory, a)

/-- `AllocationN::write_uninitialized`: bounds-check against capacity
(`capacity.contains(offset)` is `0 ≤ offset < capacity`; Array only ever
passes the non-negative `count.max_offset()`, carried here as a `Nat`), then
write without dropping the previous contents. -/
def Alloc.writeUninitialized {α : Type _} (a : Alloc α) (offset : Nat) (v : α) :
    Except AllocationError Unit × Alloc α :=
  if offset < a.capacity then (.ok (), ⟨a.capacity, a.data.set offset (some v)⟩)
  else (.error .InvalidOffset, a)

/-- `AllocationN::read_destructively`: bounds-check, move the value out, slot
becomes uninitialized.  Reading a slot that was never initialized returns the
ghost `none` (the real code would return junk bytes; the array layer treats
that as an aborted execution, see `arrayPopLast`). -/
def Alloc.readDestructively {α : Type _} (a : Alloc α) (offset : Nat) :
    Except AllocationError (Option α) × Alloc α :=
  if offset < a.capacity then
    (.ok (a.data.getD offset none), ⟨a.capacity, a.data.set offset none⟩)
  else (.error .InvalidOffset, a)

/-- `roughly_double_capacity`: `capacity.double_or_max(2)` on the logical
magnitude (`starting_alloc = 2`).  `Count64` saturates at `2^63`; the
`≤ MAX/2` stored-value test is `2^62 ≤ m` on the magnitude. -/
def doubleOrMaxNat (m : Nat) (minValue : Nat) : Nat :=
  if 4611686018427387904 ≤ m then 9223372036854775808 else max minValue (2 * m)

/-- `AllocationN::grow` / `allocation_grow`: fail `OutOfMemory` when doubling
would not actually grow (already at `MAX`), otherwise `mut_capacity` to the
doubled target. -/
def Alloc.grow {α : Type _} (a : Alloc α) (allocOk : Bool) :
    Except AllocationError Unit × Alloc α :=
  let desired := doubleOrMaxNat a.capacity 2
  if desired ≤ a.capacity then (.error .OutOfMemory, a)
  else a.mutCapacity allocOk desired

/-- Bridge between the two renderings of the growth policy: on logical
magnitudes `≤ 2^63`, `Count64::double_or_max(2)` is `doubleOrMaxNat · 2`. -/
theorem doubleOrMaxNat_agrees (m : Nat) (hm : m ≤ 9223372036854775808) :
    Count.double_or_max ⟨-(m : Int)⟩ 2 = ⟨-(doubleOrMaxNat m 2 : Int)⟩ := by
  rw [Count.double_or_max, doubleOrMaxNat]
  simp only [Count.val_mk]
  by_cases h : 4611686018427387904 ≤ m
  · rw [if_pos (by omega), if_pos h]
    simp only [Count.MAX, Count.mk.injEq]
    norm_num
  · rw [if_neg (by omega), if_neg h]
    simp only [Count.mk.injEq]
    omega

/-- C7: `mut_capacity` fails with `OutOfMemory` exactly when the allocator
cannot satisfy the request (the oracle is consulted precisely when a real
alloc/realloc happens, i.e. target nonzero and different from the current
capacity); on failure the recorded capacity and the buffer contents are
untouched, and the recorded capacity becomes `new_capacity` exactly on
success. -/
theorem alloc_mut_capacity_spec {α : Type _} (a : Alloc α) (allocOk : Bool) (newCap : Nat) :
    ((a.mutCapacity allocOk newCap).1 = .ok () →
        (a.mutCapacity allocOk newCap).2.capacity = newCap) ∧
    (∀ e, (a.mutCapacity allocOk newCap).1 = .error e →
        e = .OutOfMemory ∧ (a.mutCapacity allocOk newCap).2 = a) ∧
    ((a.mutCapacity allocOk newCap).1 ≠ .ok ()
        ↔ allocOk = false ∧ newCap ≠ 0 ∧ newCap ≠ a.capacity) := by
  rw [Alloc.mutCapacity]
  by_cases h0 : newCap = 0
  · subst h0
    simp
  · rw [if_neg h0]
    by_cases heq : newCap = a.capacity
    · rw [if_pos heq]
      simp [heq]
    · rw [if_neg heq]
      cases allocOk with
      | true => simp [h0, heq]
      | false => simp [h0, heq]

/-- C7 witness: a refused 5-slot request on an empty allocation reports
`OutOfMemory`, leaves the allocation untouched, and a granted one records
capacity 5. -/
theorem alloc_mut_capacity_spec_witness :
    (((Alloc.new : Alloc Nat).mutCapacity false 5).1 = .error .OutOfMemory →
        ((Alloc.new : Alloc Nat).mutCapacity false 5).2 = Alloc.new) ∧
    (((Alloc.new : Alloc Nat).mutCapacity true 5).1 = .ok () →
        ((Alloc.new : Alloc Nat).mutCapacity true 5).2.capacity = 5) :=
  ⟨fun h => ((alloc_mut_capacity_spec (Alloc.new : Alloc Nat) false 5).2.1
      AllocationError.OutOfMemory h).2,
   fun h => (alloc_mut_capacity_spec (Alloc.new : Alloc Nat) true 5).1 h⟩

/-! ### Array (src/core/array.rs, `Array<T>`)

An Array owns a count of live elements plus its Allocation.  The public
operations are translated from the `array_*` helper functions; `expect(...)`
panics, `assert!` failures and reads of never-initialized slots abort the
execution (`none`). -/

inductive ArrayError where
  | Allocation (e : AllocationError)
  | InvalidCount
deriving DecidableEq

inductive Clear where
  | KeepCapacity
  | DropCapacity
deriving DecidableEq

structure ArrayS (α : Type _) where
  count : Nat
  alloc : Alloc α
deriving DecidableEq

/-- `Array::new()`: count 0, capacity 0, no buffer. -/
def ArrayS.new {α : Type _} : ArrayS α := ⟨0, Alloc.new⟩

/-- `array_grow`: grow the allocation, wrapping allocation errors. -/
def arrayGrow {α : Type _} (allocOk : Bool) (s : ArrayS α) :
    Except ArrayError Unit × ArrayS α :=
  match s.alloc.grow allocOk with
  | (.error e, a') => (.error (.Allocation e), ⟨s.count, a'⟩)
  | (.ok _, a') => (.ok (), ⟨s.count, a'⟩)

/-- `array_push`: grow when full, then `*count += 1` and write at
`count.max_offset()` (the old count).  The `expect("should be in bounds")`
on the write is a panic, hence `none`. -/
def arrayPush {α : Type _} (allocOk : Bool) (v : α) (s : ArrayS α) :
    Option (Except ArrayError Unit × ArrayS α) :=
  let afterGrow : Except ArrayError Unit × ArrayS α :=
    if s.alloc.capacity = s.count then arrayGrow allocOk s else (.ok (), s)
  match afterGrow with
  | (.error e, s') => some (.error e, s')
  | (.ok _, s') =>
      let newCount := s'.count + 1
      match s'.alloc.writeUninitialized (newCount - 1) v with
      | (.error _, _) => none
      | (.ok _, a') => some (.ok (), ⟨newCount, a'⟩)

/-- `array_pop_last`: `None` on an empty array, otherwise destructively read
the slot at `count.max_offset()` and decrement.  The `expect` is a panic; a
destructive read of a slot the ghost state says was never written is junk, so
that execution is also aborted. -/
def arrayPopLast {α : Type _} (s : ArrayS α) : Option (Option α × ArrayS α) :=
  if s.count = 0 then some (none, s)
  else
    match s.alloc.readDestructively (s.count - 1) with
    | (.error _, _) => none
    | (.ok none, _) => none
    | (.ok (some v), a') => some (some v, ⟨s.count - 1, a'⟩)

/-- `k` iterations of the `while ... { pop }` loops.  A pop that yields `None`
breaks out (the `while let Some(_)` form); a pop that panics aborts. -/
def popLoop {α : Type _} : Nat → ArrayS α → Option (ArrayS α)
  | 0, s => some s
  | k + 1, s =>
      match arrayPopLast s with
      | none => none
      | some (none, s') => some s'
      | some (some _, s') => popLoop k s'

/-- `array_mut_capacity`: no-op if the capacity already matches, otherwise pop
the live elements down to the new capacity (the `while *count > new_capacity`
loop runs exactly `count - new_capacity` times, each successful pop
decrementing `count` by one) and resize the allocation. -/
def arrayMutCapacity {α : Type _} (allocOk : Bool) (newCap : Nat) (s : ArrayS α) :
    Option (Except ArrayError Unit × ArrayS α) :=
  if newCap = s.alloc.capacity then some (.ok (), s)
  else
    match popLoop (s.count - newCap) s with
    | none => none
    | some s' =>
        match s'.alloc.mutCapacity allocOk newCap with
        | (.error e, a') => some (.error (.Allocation e), ⟨s'.count, a'⟩)
        | (.ok _, a') => some (.ok (), ⟨s'.count, a'⟩)

/-- `array_clear`: `KeepCapacity` pops until a pop yields `None`;
`DropCapacity` is `mut_capacity(0)` with `expect("clearing should not alloc")`
(the 0-capacity path never consults the allocator).  Both end with
`assert!(count == 0)`. -/
def arrayClear {α : Type _} (mode : Clear) (s : ArrayS α) : Option (ArrayS α) :=
  match mode with
  | .KeepCapacity =>
      match popLoop (s.count + 1) s with
      | none => none
      | some s' => if s'.count = 0 then some s' else none
  | .DropCapacity =>
      match arrayMutCapacity true 0 s with
      | none => none
      | some (.error _, _) => none
      | some (.ok _, s') => if s'.count = 0 then some s' else none

/-- `k` iterations of the `while *count < new_count { push(default) }` loop;
the `expect("already allocated enough above")` on a failed push is a panic. -/
def pushLoop {α : Type _} (allocOk : Bool) (d : α) :
    Nat → ArrayS α → Option (ArrayS α)
  | 0, s => some s
  | k + 1, s =>
      match arrayPush allocOk d s with
      | none => none
      | some (.error _, _) => none
      | some (.ok _, s') => pushLoop allocOk d k s'

/-- `array_mut_count` (element type with a default value `d`): shrinking pops
down to the target, growing first ensures capacity (only when the target
exceeds it) then pushes default values; each successful push increments
`count` by one, so the loop runs exactly `new_count - count` times. -/
def arrayMutCount {α : Type _} (allocOk : Bool) (newCount : Nat) (d : α) (s : ArrayS α) :
    Option (Except ArrayError Unit × ArrayS α) :=
  if newCount < s.count then
    match popLoop (s.count - newCount) s with
    | none => none
    | some s' => some (.ok (), s')
  else if s.count < newCount then
    match (if s.alloc.capacity < newCount
           then arrayMutCapacity allocOk newCount s
           else some (.ok (), s)) with
    | none => none
    | some (.error e, s') => some (.error e, s')
    | some (.ok _, s') =>
        match pushLoop allocOk d (newCount - s'.count) s' with
        | none => none
        | some s'' => some (.ok (), s'')
  else some (.ok (), s)

/-- C8: pushing 1, 2, 3 onto an empty Array grows the capacity to 2 then 4
(`double_or_max(2)` from 0 and from 2) and three `pop(Last)` calls then yield
`Some 3`, `Some 2`, `Some 1`, leaving count 0 with the capacity still exactly
4 (popping never touches capacity); a pop on a count-0 array returns `None`
and changes nothing. -/
theorem array_push_pop_round_trip :
    arrayPush true 1 (ArrayS.new (α := Nat)) =
      some (.ok (), ⟨1, ⟨2, [some 1, none]⟩⟩) ∧
    arrayPush true 2 (⟨1, ⟨2, [some 1, none]⟩⟩ : ArrayS Nat) =
      some (.ok (), ⟨2, ⟨2, [some 1, some 2]⟩⟩) ∧
    arrayPush true 3 (⟨2, ⟨2, [some 1, some 2]⟩⟩ : ArrayS Nat) =
      some (.ok (), ⟨3, ⟨4, [some 1, some 2, some 3, none]⟩⟩) ∧
    arrayPopLast (⟨3, ⟨4, [some 1, some 2, some 3, none]⟩⟩ : ArrayS Nat) =
      some (some 3, ⟨2, ⟨4, [some 1, some 2, none, none]⟩⟩) ∧
    arrayPopLast (⟨2, ⟨4, [some 1, some 2, none, none]⟩⟩ : ArrayS Nat) =
      some (some 2, ⟨1, ⟨4, [some 1, none, none, none]⟩⟩) ∧
    arrayPopLast (⟨1, ⟨4, [some 1, none, none, none]⟩⟩ : ArrayS Nat) =
      some (some 1, ⟨0, ⟨4, [none, none, none, none]⟩⟩) ∧
    arrayPopLast (⟨0, ⟨4, [none, none, none, none]⟩⟩ : ArrayS Nat) =
      some (none, ⟨0, ⟨4, [none, none, none, none]⟩⟩) := by
  decide

/-! ### Sequences of public Array operations (for the C1 invariant) -/

/-- One public Array operation, carrying the allocator's answer for the
requests it may make and the payload it needs. -/
inductive AOp (α : Type _) where
  | push (allocOk : Bool) (v : α)
  | pop
  | clear (mode : Clear)
  | mutCapacity (allocOk : Bool) (n : Nat)
  | mutCount (allocOk : Bool) (n : Nat)

/-- Capacity/count arguments are `Count64` values, hence at most `2^63`. -/
def AOp.valid {α : Type _} : AOp α → Prop
  | .mutCapacity _ n => n ≤ 9223372036854775808
  | .mutCount _ n => n ≤ 9223372036854775808
  | _ => True

/-- Run one public operation, keeping the array state it leaves behind
(`Err` returns leave the array alive; panics abort). `d` is the element
type's `Default::default()` used by `mut_count`. -/
def stepA {α : Type _} (d : α) : AOp α → ArrayS α → Option (ArrayS α)
  | .push allocOk v, s => (arrayPush allocOk v s).map Prod.snd
  | .pop, s => (arrayPopLast s).map Prod.snd
  | .clear mode, s => arrayClear mode s
  | .mutCapacity allocOk n, s => (arrayMutCapacity allocOk n s).map Prod.snd
  | .mutCount allocOk n, s => (arrayMutCount allocOk n d s).map Prod.snd

/-- Run a finite sequence of public operations. -/
def runFromA {α : Type _} (d : α) : List (AOp α) → ArrayS α → Option (ArrayS α)
  | [], s => some s
  | op :: ops, s =>
      match stepA d op s with
      | none => none
      | some s' => runFromA d ops s'

/-- The Array representation invariant: the buffer has exactly `capacity`
slots, the capacity is a representable `Count64` magnitude, and the
initialized slots are exactly the prefix `[0, count)`. -/
def ArrayInv {α : Type _} (s : ArrayS α) : Prop :=
  s.alloc.data.length = s.alloc.capacity ∧
  s.alloc.capacity ≤ 9223372036854775808 ∧
  ∀ i : Nat, (s.alloc.data.getD i none).isSome ↔ i < s.count

theorem ArrayInv.count_le_capacity {α : Type _} {s : ArrayS α} (h : ArrayInv s) :
    s.count ≤ s.alloc.capacity := by
  by_contra hlt
  have h1 := (h.2.2 s.alloc.capacity).2 (by omega)
  rw [getD_of_length_le _ _ (le_of_eq h.1)] at h1
  simp at h1

theorem ArrayInv.count_le_length {α : Type _} {s : ArrayS α} (h : ArrayInv s) :
    s.count ≤ s.alloc.data.length := h.1 ▸ h.count_le_capacity

theorem resizeData_length {α : Type _} (l : List (Option α)) (n : Nat) :
    (Alloc.resizeData l n).length = n := by
  simp only [Alloc.resizeData, List.length_append, List.length_take, List.length_replicate]
  omega

theorem getD_resizeData {α : Type _} (l : List (Option α)) (n i : Nat) :
    (Alloc.resizeData l n).getD i none =
      if i < n ∧ i < l.length then l.getD i none else none := by
  by_cases h1 : i < n ∧ i < l.length
  · rw [if_pos h1, Alloc.resizeData,
      getD_append_left _ _ _ (by simp only [List.length_take]; omega),
      getD_take _ _ _ h1.1]
  · rw [if_neg h1]
    by_cases h2 : i < n
    · have h3 : l.length ≤ i := by omega
      rw [Alloc.resizeData, getD_append_right _ _ _ (by simp only [List.length_take]; omega),
        getD_replicate_none]
    · exact getD_of_length_le _ _ (by rw [resizeData_length]; omega)

theorem doubleOrMaxNat_le_max (m : Nat) : doubleOrMaxNat m 2 ≤ 9223372036854775808 := by
  rw [doubleOrMaxNat]
  split <;> omega

/-- Invariant transport through `Alloc.mutCapacity`, assuming the owner has
already destroyed the elements above the new capacity (`count ≤ newCap`). -/
theorem alloc_mutCapacity_inv {α : Type _} {a : Alloc α} {allocOk : Bool}
    {newCap count : Nat}
    (hlen : a.data.length = a.capacity)
    (hnewB : newCap ≤ 9223372036854775808)
    (hcapB : a.capacity ≤ 9223372036854775808)
    (hlive : ∀ i : Nat, (a.data.getD i none).isSome ↔ i < count)
    (hcnt : count ≤ newCap) :
    ((a.mutCapacity allocOk newCap).2.data.length = (a.mutCapacity allocOk newCap).2.capacity) ∧
    ((a.mutCapacity allocOk newCap).2.capacity ≤ 9223372036854775808) ∧
    (∀ i : Nat, ((a.mutCapacity allocOk newCap).2.data.getD i none).isSome ↔ i < count) := by
  have hcl : count ≤ a.data.length := by
    by_contra hlt
    have h1 := (hlive a.data.length).2 (by omega)
    rw [getD_of_length_le _ _ (le_refl _)] at h1
    simp at h1
  rw [Alloc.mutCapacity]
  by_cases h0 : newCap = 0
  · subst h0
    rw [if_pos rfl]
    refine ⟨rfl, ?_, ?_⟩
    · show (0 : Nat) ≤ 9223372036854775808
      omega
    · intro i
      show ((([] : List (Option α)).getD i none).isSome = true) ↔ i < count
      simp [List.getD]
      omega
  · rw [if_neg h0]
    by_cases heq : newCap = a.capacity
    · rw [if_pos heq]
      exact ⟨hlen, hcapB, hlive⟩
    · rw [if_neg heq]
      by_cases hok : allocOk = true
      · rw [if_pos hok]
        refine ⟨resizeData_length _ _, hnewB, ?_⟩
        intro i
        show ((Alloc.resizeData a.data newCap).getD i none).isSome = true ↔ i < count
        rw [getD_resizeData]
        by_cases hi : i < newCap ∧ i < a.data.length
        · rw [if_pos hi]
          exact hlive i
        · rw [if_neg hi]
          simp only [Option.isSome_none, Bool.false_eq_true, false_iff]
          omega
      · rw [if_neg hok]
        exact ⟨hlen, hcapB, hlive⟩

/-- `Alloc.grow` either fails leaving the allocation untouched, or yields the
doubled capacity with the old contents preserved. -/
theorem alloc_grow_spec {α : Type _} {a : Alloc α} {allocOk : Bool}
    {r : Except AllocationError Unit} {a' : Alloc α}
    (h : a.grow allocOk = (r, a')) :
    (r = .ok () → a'.capacity = doubleOrMaxNat a.capacity 2 ∧
        a.capacity < a'.capacity ∧
        a'.data = Alloc.resizeData a.data (doubleOrMaxNat a.capacity 2)) ∧
    (∀ e, r = .error e → a' = a) := by
  simp only [Alloc.grow] at h
  by_cases hd : doubleOrMaxNat a.capacity 2 ≤ a.capacity
  · rw [if_pos hd] at h
    injection h with h1 h2
    subst h1
    subst h2
    exact ⟨fun hc => Except.noConfusion hc, fun e _ => rfl⟩
  · rw [if_neg hd] at h
    rw [Alloc.mutCapacity] at h
    have h0 : ¬ doubleOrMaxNat a.capacity 2 = 0 := by omega
    have heq : ¬ doubleOrMaxNat a.capacity 2 = a.capacity := by omega
    rw [if_neg h0, if_neg heq] at h
    by_cases hok : allocOk = true
    · rw [if_pos hok] at h
      injection h with h1 h2
      subst h1
      subst h2
      refine ⟨fun _ => ⟨rfl, ?_, rfl⟩, fun e hc => Except.noConfusion hc⟩
      show a.capacity < doubleOrMaxNat a.capacity 2
      omega
    · rw [if_neg hok] at h
      injection h with h1 h2
      subst h1
      subst h2
      exact ⟨fun hc => Except.noConfusion hc, fun e _ => rfl⟩

theorem live_resize {α : Type _} {l : List (Option α)} {n count : Nat}
    (hlive : ∀ i : Nat, (l.getD i none).isSome ↔ i < count)
    (hcl : count ≤ l.length) (hcn : count ≤ n) :
    ∀ i : Nat, ((Alloc.resizeData l n).getD i none).isSome ↔ i < count := by
  intro i
  rw [getD_resizeData]
  by_cases hi : i < n ∧ i < l.length
  · rw [if_pos hi]
    exact hlive i
  · rw [if_neg hi]
    simp only [Option.isSome_none, Bool.false_eq_true, false_iff]
    omega

theorem inv_after_write {α : Type _} {cap count : Nat} {l : List (Option α)} {v : α}
    (hlen : l.length = cap) (hcapB : cap ≤ 9223372036854775808)
    (hlive : ∀ i : Nat, (l.getD i none).isSome ↔ i < count)
    (hlt : count < cap) :
    ArrayInv ⟨count + 1, ⟨cap, l.set count (some v)⟩⟩ := by
  refine ⟨by simpa using hlen, hcapB, ?_⟩
  intro i
  by_cases hi : i = count
  · subst hi
    rw [getD_set_self _ _ _ (by omega)]
    simp
  · rw [getD_set_ne _ _ _ _ (fun hh => hi hh.symm)]
    rw [hlive i]
    show i < count ↔ i < count + 1
    omega

/-- `array_push` preserves the Array invariant (on every outcome that does
not abort: a failed grow leaves the array as it was, a successful push
extends the live prefix by one). -/
theorem arrayPush_inv {α : Type _} {allocOk : Bool} {v : α} {s : ArrayS α}
    {r : Except ArrayError Unit} {s' : ArrayS α}
    (hInv : ArrayInv s) (h : arrayPush allocOk v s = some (r, s')) : ArrayInv s' := by
  obtain ⟨hlen, hcapB, hlive⟩ := hInv
  have hcnt : s.count ≤ s.alloc.capacity :=
    ArrayInv.count_le_capacity ⟨hlen, hcapB, hlive⟩
  simp only [arrayPush] at h
  by_cases hfull : s.alloc.capacity = s.count
  · rw [if_pos hfull, arrayGrow] at h
    rcases hag : s.alloc.grow allocOk with ⟨ra, aa⟩
    rw [hag] at h
    obtain ⟨hgok, hgerr⟩ := alloc_grow_spec hag
    cases ra with
    | error e =>
        simp only [] at h
        injection h with h'
        injection h' with h1 h2
        subst h2
        have : aa = s.alloc := hgerr e rfl
        subst this
        exact ⟨hlen, hcapB, hlive⟩
    | ok u =>
        cases u
        obtain ⟨hcap', hlt', hdata'⟩ := hgok rfl
        simp only [] at h
        rw [Alloc.writeUninitialized] at h
        have hoff : s.count + 1 - 1 < aa.capacity := by omega
        rw [if_pos hoff] at h
        simp only [] at h
        injection h with h'
        injection h' with h1 h2
        subst h2
        have hlenaa : aa.data.length = aa.capacity := by
          rw [hdata', resizeData_length, hcap']
        have hliveaa : ∀ i : Nat, (aa.data.getD i none).isSome ↔ i < s.count := by
          rw [hdata']
          exact live_resize hlive (by omega) (by omega)
        have hcapBaa : aa.capacity ≤ 9223372036854775808 := by
          rw [hcap']
          exact doubleOrMaxNat_le_max _
        have := inv_after_write (v := v) hlenaa hcapBaa hliveaa (by omega)
        simpa using this
  · rw [if_neg hfull] at h
    simp only [] at h
    rw [Alloc.writeUninitialized] at h
    have hoff : s.count + 1 - 1 < s.alloc.capacity := by omega
    rw [if_pos hoff] at h
    simp only [] at h
    injection h with h'
    injection h' with h1 h2
    subst h2
    have := inv_after_write (v := v) hlen hcapB hlive (by omega)
    simpa using this

/-- `array_pop_last` preserves the invariant, never touches the capacity, is
the identity (returning `None`) on an empty array, and pops exactly one
initialized element otherwise. -/
theorem arrayPopLast_spec {α : Type _} {s : ArrayS α} {p : Option α} {s' : ArrayS α}
    (hInv : ArrayInv s) (h : arrayPopLast s = some (p, s')) :
    ArrayInv s' ∧ s'.alloc.capacity = s.alloc.capacity ∧
    (s.count = 0 → s' = s ∧ p = none) ∧
    (s.count ≠ 0 → s'.count = s.count - 1 ∧ p.isSome) := by
  obtain ⟨hlen, hcapB, hlive⟩ := hInv
  rw [arrayPopLast] at h
  by_cases hz : s.count = 0
  · rw [if_pos hz] at h
    injection h with h'
    injection h' with h1 h2
    subst h1
    subst h2
    exact ⟨⟨hlen, hcapB, hlive⟩, rfl, fun _ => ⟨rfl, rfl⟩, fun hc => absurd hz hc⟩
  · rw [if_neg hz] at h
    have hsl : (s.alloc.data.getD (s.count - 1) none).isSome := (hlive _).2 (by omega)
    have hcnt : s.count ≤ s.alloc.capacity :=
      ArrayInv.count_le_capacity ⟨hlen, hcapB, hlive⟩
    have hlt : s.count - 1 < s.alloc.capacity := by omega
    rw [Alloc.readDestructively, if_pos hlt] at h
    obtain ⟨v, hv⟩ := Option.isSome_iff_exists.mp hsl
    rw [hv] at h
    simp only [] at h
    injection h with h'
    injection h' with h1 h2
    subst h1
    subst h2
    refine ⟨⟨by simpa using hlen, hcapB, ?_⟩, rfl, fun hc => absurd hc hz, fun _ => ⟨rfl, rfl⟩⟩
    intro i
    by_cases hi : i = s.count - 1
    · subst hi
      rw [getD_set_self _ _ _ (by omega)]
      simp only [Option.isSome_none, Bool.false_eq_true, false_iff]
      show ¬ (s.count - 1 < s.count - 1)
      omega
    · rw [getD_set_ne _ _ _ _ (fun hh => hi hh.symm)]
      rw [hlive i]
      show i < s.count ↔ i < s.count - 1
      omega

/-- The pop loops preserve the invariant and the capacity, and remove exactly
`k` live elements (saturating at empty). -/
theorem popLoop_spec {α : Type _} :
    ∀ {k : Nat} {s s' : ArrayS α}, ArrayInv s → popLoop k s = some s' →
      ArrayInv s' ∧ s'.alloc.capacity = s.alloc.capacity ∧ s'.count = s.count - k := by
  intro k
  induction k with
  | zero =>
      intro s s' hInv h
      rw [popLoop] at h
      injection h with h1
      subst h1
      exact ⟨hInv, rfl, rfl⟩
  | succ n ih =>
      intro s s' hInv h
      rw [popLoop] at h
      rcases hp : arrayPopLast s with _ | q
      · rw [hp] at h
        cases h
      · rcases q with ⟨p, s1⟩
        rw [hp] at h
        obtain ⟨hInv1, hcap1, hzero, hpos⟩ := arrayPopLast_spec hInv hp
        by_cases hz : s.count = 0
        · obtain ⟨he, hpn⟩ := hzero hz
          subst he
          subst hpn
          simp only [] at h
          injection h with h1
          subst h1
          exact ⟨hInv1, hcap1, by omega⟩
        · obtain ⟨hc1, hps⟩ := hpos hz
          obtain ⟨v, hvv⟩ := Option.isSome_iff_exists.mp hps
          subst hvv
          simp only [] at h
          obtain ⟨hInv', hcap', hcnt'⟩ := ih hInv1 h
          exact ⟨hInv', by rw [hcap', hcap1], by omega⟩

/-- `array_mut_capacity` preserves the invariant (for representable capacity
arguments). -/
theorem arrayMutCapacity_inv {α : Type _} {allocOk : Bool} {newCap : Nat}
    {s : ArrayS α} {r : Except ArrayError Unit} {s' : ArrayS α}
    (hInv : ArrayInv s) (hB : newCap ≤ 9223372036854775808)
    (h : arrayMutCapacity allocOk newCap s = some (r, s')) : ArrayInv s' := by
  rw [arrayMutCapacity] at h
  by_cases he : newCap = s.alloc.capacity
  · rw [if_pos he] at h
    injection h with h'
    injection h' with h1 h2
    subst h2
    exact hInv
  · rw [if_neg he] at h
    rcases hp : popLoop (s.count - newCap) s with _ | s1
    · rw [hp] at h
      cases h
    · rw [hp] at h
      simp only [] at h
      obtain ⟨hInv1, hcap1, hcnt1⟩ := popLoop_spec hInv hp
      have hc1 : s1.count ≤ newCap := by omega
      rcases hm : s1.alloc.mutCapacity allocOk newCap with ⟨rm, am⟩
      rw [hm] at h
      have hmi := @alloc_mutCapacity_inv _ s1.alloc allocOk newCap s1.count hInv1.1 hB hInv1.2.1
        hInv1.2.2 hc1
      rw [hm] at hmi
      cases rm with
      | error e =>
          simp only [] at h
          injection h with h'
          injection h' with h1 h2
          subst h2
          exact ⟨hmi.1, hmi.2.1, hmi.2.2⟩
      | ok u =>
          cases u
          simp only [] at h
          injection h with h'
          injection h' with h1 h2
          subst h2
          exact ⟨hmi.1, hmi.2.1, hmi.2.2⟩

/-- `array_clear` preserves the invariant. -/
theorem arrayClear_inv {α : Type _} {mode : Clear} {s s' : ArrayS α}
    (hInv : ArrayInv s) (h : arrayClear mode s = some s') : ArrayInv s' := by
  cases mode with
  | KeepCapacity =>
      rw [arrayClear] at h
      rcases hp : popLoop (s.count + 1) s with _ | s1
      · rw [hp] at h
        cases h
      · rw [hp] at h
        simp only [] at h
        obtain ⟨hInv1, _, _⟩ := popLoop_spec hInv hp
        by_cases hz : s1.count = 0
        · rw [if_pos hz] at h
          injection h with h1
          subst h1
          exact hInv1
        · rw [if_neg hz] at h
          cases h
  | DropCapacity =>
      rw [arrayClear] at h
      rcases hm : arrayMutCapacity true 0 s with _ | q
      · rw [hm] at h
        cases h
      · rcases q with ⟨rm, s1⟩
        rw [hm] at h
        have hInv1 := arrayMutCapacity_inv hInv (by omega) hm
        cases rm with
        | error e =>
            simp only [] at h
            cases h
        | ok u =>
            cases u
            simp only [] at h
            by_cases hz : s1.count = 0
            · rw [if_pos hz] at h
              injection h with h1
              subst h1
              exact hInv1
            · rw [if_neg hz] at h
              cases h

/-- The push loops of `mut_count` preserve the invariant. -/
theorem pushLoop_inv {α : Type _} {allocOk : Bool} {d : α} :
    ∀ {k : Nat} {s s' : ArrayS α}, ArrayInv s → pushLoop allocOk d k s = some s' →
      ArrayInv s' := by
  intro k
  induction k with
  | zero =>
      intro s s' hInv h
      rw [pushLoop] at h
      injection h with h1
      subst h1
      exact hInv
  | succ n ih =>
      intro s s' hInv h
      rw [pushLoop] at h
      rcases hp : arrayPush allocOk d s with _ | q
      · rw [hp] at h
        cases h
      · rcases q with ⟨rp, s1⟩
        rw [hp] at h
        have hInv1 := arrayPush_inv hInv hp
        cases rp with
        | error e =>
            simp only [] at h
            cases h
        | ok u =>
            cases u
            simp only [] at h
            exact ih hInv1 h

/-- `array_mut_count` preserves the invariant (for representable count
arguments). -/
theorem arrayMutCount_inv {α : Type _} {allocOk : Bool} {newCount : Nat} {d : α}
    {s : ArrayS α} {r : Except ArrayError Unit} {s' : ArrayS α}
    (hInv : ArrayInv s) (hB : newCount ≤ 9223372036854775808)
    (h : arrayMutCount allocOk newCount d s = some (r, s')) : ArrayInv s' := by
  rw [arrayMutCount] at h
  by_cases hlt : newCount < s.count
  · rw [if_pos hlt] at h
    rcases hp : popLoop (s.count - newCount) s with _ | s1
    · rw [hp] at h
      cases h
    · rw [hp] at h
      simp only [] at h
      injection h with h'
      injection h' with h1 h2
      subst h2
      exact (popLoop_spec hInv hp).1
  · rw [if_neg hlt] at h
    by_cases hgt : s.count < newCount
    · rw [if_pos hgt] at h
      rcases hc : (if s.alloc.capacity < newCount
          then arrayMutCapacity allocOk newCount s
          else some (.ok (), s)) with _ | q
      · rw [hc] at h
        cases h
      · rcases q with ⟨rc, s1⟩
        rw [hc] at h
        have hInv1 : ArrayInv s1 := by
          by_cases hcap : s.alloc.capacity < newCount
          · rw [if_pos hcap] at hc
            exact arrayMutCapacity_inv hInv hB hc
          · rw [if_neg hcap] at hc
            injection hc with hc'
            injection hc' with h1 h2
            subst h2
            exact hInv
        cases rc with
        | error e =>
            simp only [] at h
            injection h with h'
            injection h' with h1 h2
            subst h2
            exact hInv1
        | ok u =>
            cases u
            simp only [] at h
            rcases hq : pushLoop allocOk d (newCount - s1.count) s1 with _ | s2
            · rw [hq] at h
              cases h
            · rw [hq] at h
              simp only [] at h
              injection h with h'
              injection h' with h1 h2
              subst h2
              exact pushLoop_inv hInv1 hq
    · rw [if_neg hgt] at h
      injection h with h'
      injection h' with h1 h2
      subst h2
      exact hInv

/-- Every public operation preserves the invariant. -/
theorem stepA_inv {α : Type _} {d : α} {op : AOp α} {s s' : ArrayS α}
    (hInv : ArrayInv s) (hv : op.valid) (h : stepA d op s = some s') : ArrayInv s' := by
  cases op with
  | push allocOk v =>
      rw [stepA] at h
      obtain ⟨⟨r, s''⟩, hp, he⟩ := Option.map_eq_some'.mp h
      cases he
      exact arrayPush_inv hInv hp
  | pop =>
      rw [stepA] at h
      obtain ⟨⟨p, s''⟩, hp, he⟩ := Option.map_eq_some'.mp h
      cases he
      exact (arrayPopLast_spec hInv hp).1
  | clear mode =>
      rw [stepA] at h
      exact arrayClear_inv hInv h
  | mutCapacity allocOk n =>
      rw [stepA] at h
      obtain ⟨⟨r, s''⟩, hp, he⟩ := Option.map_eq_some'.mp h
      cases he
      exact arrayMutCapacity_inv hInv hv hp
  | mutCount allocOk n =>
      rw [stepA] at h
      obtain ⟨⟨r, s''⟩, hp, he⟩ := Option.map_eq_some'.mp h
      cases he
      exact arrayMutCount_inv hInv hv hp

theorem runFromA_inv {α : Type _} {d : α} :
    ∀ {ops : List (AOp α)} {s s' : ArrayS α}, (∀ op ∈ ops, op.valid) →
      ArrayInv s → runFromA d ops s = some s' → ArrayInv s' := by
  intro ops
  induction ops with
  | nil =>
      intro s s' _ hInv h
      rw [runFromA] at h
      injection h with h1
      subst h1
      exact hInv
  | cons op rest ih =>
      intro s s' hv hInv h
      rw [runFromA] at h
      rcases hs : stepA d op s with _ | s1
      · rw [hs] at h
        cases h
      · rw [hs] at h
        exact ih (fun o ho => hv o (List.mem_cons_of_mem _ ho))
          (stepA_inv hInv (hv op (List.mem_cons_self _ _)) hs) h

/-- C1: for every element type and every finite sequence of public Array
operations (push, pop, clear, mut_capacity, mut_count — each with any
allocator behavior and representable count arguments) starting from
`Array::new()`, the resulting Array has `count ≤ capacity`, its buffer has
exactly `capacity` slots, and the initialized slots are exactly the
contiguous prefix `[0, count)`. -/
theorem array_reachable_invariant {α : Type _} (d : α) (ops : List (AOp α))
    (hops : ∀ op ∈ ops, op.valid) (s : ArrayS α)
    (h : runFromA d ops ArrayS.new = some s) :
    s.count ≤ s.alloc.capacity ∧
    s.alloc.data.length = s.alloc.capacity ∧
    (∀ i : Nat, (s.alloc.data.getD i none).isSome ↔ i < s.count) := by
  have hnew : ArrayInv (ArrayS.new (α := α)) := by
    refine ⟨rfl, ?_, ?_⟩
    · show (0 : Nat) ≤ 9223372036854775808
      omega
    · intro i
      show ((([] : List (Option α)).getD i none).isSome = true) ↔ i < 0
      simp [List.getD]
  have hInv := runFromA_inv hops hnew h
  exact ⟨hInv.count_le_capacity, hInv.1, hInv.2.2⟩

/-- C1 witness: after `push 7; push 8; pop` the array is `⟨1, ⟨2, [7, ·]⟩⟩`:
count 1 ≤ capacity 2, slot 0 live, slot 1 not. -/
theorem array_reachable_invariant_witness :
    (⟨1, ⟨2, [some 7, none]⟩⟩ : ArrayS Nat).count ≤
      (⟨1, ⟨2, [some 7, none]⟩⟩ : ArrayS Nat).alloc.capacity ∧
    ((⟨1, ⟨2, [some 7, none]⟩⟩ : ArrayS Nat).alloc.data.getD 0 none).isSome ∧
    ¬ ((⟨1, ⟨2, [some 7, none]⟩⟩ : ArrayS Nat).alloc.data.getD 1 none).isSome := by
  have h := array_reachable_invariant 0
    [AOp.push true 7, AOp.push true 8, AOp.pop]
    (by
      intro op hop
      simp only [List.mem_cons, List.not_mem_nil, or_false] at hop
      rcases hop with rfl | rfl | rfl <;> trivial)
    (⟨1, ⟨2, [some 7, none]⟩⟩ : ArrayS Nat)
    (by decide)
  refine ⟨h.1, (h.2.2 0).2 (by decide), ?_⟩
  rw [h.2.2 1]
  decide

/-! ### Shtick (src/core/shtick.rs)

A Shtick is a 16-byte small-string: either inline (`special_count > 0`,
length `special_count - 1`, bytes in the 14-byte internal buffer) or
heap-backed (`special_count ≤ 0`, length `-special_count`, bytes in an owned
`Allocation16<u8>`).  Following §9 of the design notes the bit-packed tag is
embedded as a sum type carrying the logical count; the inline buffer always
has exactly 14 slots.  Bytes are `Nat` values; a slot is `none` when the
underlying memory holds junk (e.g. the region beyond the copied prefix after
a representation switch, or a never-written heap byte).

This snapshot of index.rs predates the `Count16::negated/as_negated/as_usize`
accessors that shtick.rs uses; they are the evident stored-form conversions
(logical count = −stored), and the sum type already carries the logical
count, so nothing further needs modelling. -/

inductive ShtickError where
  | TooLarge
  | Allocation (e : AllocationError)
deriving DecidableEq

inductive Shtick where
  | unalloc (count : Nat) (buf : List (Option Nat))
  | onHeap (count : Nat) (a : Alloc Nat)
deriving DecidableEq

/-- `copy_from_slice` of `u` into the window `[start, start + u.length)`. -/
def writeAt (l : List (Option Nat)) (start : Nat) (u : List Nat) : List (Option Nat) :=
  l.take start ++ u.map some ++ l.drop (start + u.length)

namespace Shtick

/-- `Shtick::UNALLOCATED16`: the inline threshold, 14 bytes. -/
def UNALLOCATED16 : Nat := 14

/-- `Shtick::new()`: empty inline Shtick, buffer zeroed. -/
def new : Shtick := .unalloc 0 (List.replicate 14 (some 0))

/-- `Shtick::is_allocated()`: the sign test on `special_count`. -/
def isAllocated : Shtick → Bool
  | .unalloc _ _ => false
  | .onHeap _ _ => true

/-- `Shtick::count()`: the logical byte count decoded from `special_count`. -/
def count : Shtick → Nat
  | .unalloc c _ => c
  | .onHeap c _ => c

/-- `Shtick::capacity()`: the allocation's capacity when heap-backed,
`max_unallocated_count() = 14` when inline. -/
def capacity : Shtick → Nat
  | .unalloc _ _ => 14
  | .onHeap _ a => a.capacity

/-- The `Deref` view: the live bytes `[0, count)`. -/
def bytes : Shtick → List (Option Nat)
  | .unalloc c b => b.take c
  | .onHeap c a => a.data.take c

/-- `Shtick::mut_capacity(new_capacity)` (aborting executions — slice-length
panics — are `none`):
* target ≤ 14: if heap-backed, take the allocation out, truncate the count to
  the target, copy that prefix into the inline buffer (the rest of the 14
  bytes is whatever the allocation struct's bits were, i.e. junk) and release
  the allocation; if already inline just truncate the recorded count.
* target > 14: if heap-backed, resize the existing allocation in place and
  truncate the count if it dropped below it; if inline, fill a fresh
  allocation, copy the inline bytes over, then install it. -/
def mutCapacity (allocOk : Bool) (newCap : Nat) :
    Shtick → Option (Except ShtickError Unit × Shtick)
  | .onHeap c a =>
      if newCap ≤ 14 then
        let newCount := min c newCap
        if newCount ≤ a.data.length then
          some (.ok (), .unalloc newCount
            (a.data.take newCount ++ List.replicate (14 - newCount) none))
        else none
      else
        match a.mutCapacity allocOk newCap with
        | (.error e, a') => some (.error (.Allocation e), .onHeap c a')
        | (.ok _, a') =>
            some (.ok (), .onHeap (if newCap < c then newCap else c) a')
  | .unalloc c buf =>
      if newCap ≤ 14 then
        if newCap < c then some (.ok (), .unalloc newCap buf)
        else some (.ok (), .unalloc c buf)
      else
        match (Alloc.new : Alloc Nat).mutCapacity allocOk newCap with
        | (.error e, _) => some (.error (.Allocation e), .unalloc c buf)
        | (.ok _, a') =>
            if c ≤ a'.data.length then
              some (.ok (), .onHeap c ⟨a'.capacity, buf.take c ++ a'.data.drop c⟩)
            else none

/-- `Shtick::push(char)`, with the character abstracted to its UTF-8 byte
sequence `u` (`1 ≤ u.length ≤ 4`):
* `needed = count + u.len`, `TooLarge` iff `needed > Count16::MAX_USIZE = 2^15`;
* grow first when `needed ≥ capacity`: target 32 (`SHORT_NEXT_POWER_OF_2 * 2`)
  when inline, `capacity + capacity` when heap-backed — that `Count16`
  addition overflows `i16` (a debug-build panic) when `2·capacity > 2^15`;
* `assert!(capacity >= needed)` after growing;
* encode the bytes into `[count, needed)` and set the count to `needed`. -/
def push (allocOk : Bool) (u : List Nat) (s : Shtick) :
    Option (Except ShtickError Unit × Shtick) :=
  let c := s.count
  let needed := c + u.length
  if 32768 < needed then some (.error .TooLarge, s)
  else
    let afterGrow : Option (Except ShtickError Unit × Shtick) :=
      if s.capacity ≤ needed then
        if s.isAllocated = false then s.mutCapacity allocOk 32
        else if s.capacity + s.capacity ≤ 32768 then
          s.mutCapacity allocOk (s.capacity + s.capacity)
        else none
      else some (.ok (), s)
    match afterGrow with
    | none => none
    | some (.error e, s') => some (.error e, s')
    | some (.ok _, s') =>
        if s'.capacity < needed then none
        else
          match s' with
          | .unalloc _ buf =>
              if needed ≤ 14 then some (.ok (), .unalloc needed (writeAt buf c u))
              else none
          | .onHeap _ a =>
              if needed ≤ a.capacity then
                some (.ok (), .onHeap needed ⟨a.capacity, writeAt a.data c u⟩)
              else none

/-- `TryFrom<&[u8]> for Shtick`: `TooLarge` iff the input exceeds
`Count16::MAX_USIZE = 2^15`, else size a fresh Shtick to exactly fit
(`mut_capacity` then `mut_just_count`, whose `assert!(count ≤ capacity)` and
the copy's slice bound are the `none` cases) and copy the bytes in. -/
def tryFromBytes (allocOk : Bool) (bs : List Nat) : Option (Except ShtickError Shtick) :=
  if 32768 < bs.length then some (.error .TooLarge)
  else
    match Shtick.new.mutCapacity allocOk bs.length with
    | none => none
    | some (.error e, _) => some (.error e)
    | some (.ok _, s') =>
        if s'.capacity < bs.length then none
        else
          match s' with
          | .unalloc _ buf =>
              if bs.length ≤ 14 then some (.ok (.unalloc bs.length (writeAt buf 0 bs)))
              else none
          | .onHeap _ a =>
              if bs.length ≤ a.capacity then
                some (.ok (.onHeap bs.length ⟨a.capacity, writeAt a.data 0 bs⟩))
              else none

/-- Structural well-formedness: inline counts fit the 14-byte buffer (which
has exactly 14 slots), heap counts fit the allocation, and capacities fit the
`Count16` domain. -/
def wf : Shtick → Prop
  | .unalloc c buf => c ≤ 14 ∧ buf.length = 14
  | .onHeap c a => c ≤ a.capacity ∧ a.data.length = a.capacity ∧ a.capacity ≤ 32768

end Shtick

/-- The C9 invariant together with the well-formedness it rides on. -/
def ShtickInv (s : Shtick) : Prop :=
  s.wf ∧ (s.isAllocated = true → 14 < s.capacity)

/-! Sanity examples mirroring the unit tests in shtick.rs. -/

example : Shtick.tryFromBytes true (List.replicate 14 104) =
    some (.ok (.unalloc 14 (List.replicate 14 (some 104)))) := by decide
example :
    (Shtick.tryFromBytes true (List.replicate 14 104)).map
      (fun r => match r with
        | .ok s => (s.isAllocated, s.count, s.capacity)
        | .error _ => (true, 0, 0)) = some (false, 14, 14) := by decide
example :
    (Shtick.push true [63] (.unalloc 14 (List.replicate 14 (some 104)))).map
      (fun p => match p with
        | (.ok _, s) => (s.isAllocated, s.count, s.capacity)
        | (.error _, _) => (false, 0, 0)) = some (true, 15, 32) := by decide

/-- C10: a newly created `Shtick` reports `capacity() = 14` (the inline
threshold, never 0) with `count() = 0`, and every inline/unallocated Shtick
reports `capacity() = 14`. -/
theorem shtick_unallocated_capacity :
    Shtick.new.capacity = 14 ∧ Shtick.new.count = 0 ∧
    ∀ s : Shtick, s.isAllocated = false → s.capacity = 14 := by
  refine ⟨rfl, rfl, ?_⟩
  intro s h
  cases s with
  | unalloc c b => rfl
  | onHeap c a => simp [Shtick.isAllocated] at h

/-- C10 witness: a partially filled inline Shtick still reports capacity 14. -/
theorem shtick_unallocated_capacity_witness :
    (Shtick.unalloc 3 (List.replicate 14 (some 7))).capacity = 14 :=
  shtick_unallocated_capacity.2.2 (Shtick.unalloc 3 (List.replicate 14 (some 7))) rfl

theorem writeAt_length {l : List (Option Nat)} {start : Nat} {u : List Nat}
    (h : start + u.length ≤ l.length) : (writeAt l start u).length = l.length := by
  simp only [writeAt, List.length_append, List.length_take, List.length_map,
    List.length_drop]
  omega


/-- `mut_capacity` on an inline Shtick with an inline-sized target: only the
count can shrink. -/
theorem mutCapacity_unalloc_small {allocOk : Bool} {n c : Nat} {buf : List (Option Nat)}
    (h : n ≤ 14) :
    Shtick.mutCapacity allocOk n (.unalloc c buf) =
      (if n < c then some (.ok (), .unalloc n buf) else some (.ok (), .unalloc c buf)) := by
  rw [Shtick.mutCapacity, if_pos h]

/-- `mut_capacity` on an inline Shtick with a heap-sized target: fresh
allocation, copy of the inline bytes, switch to Heap (or propagate
`OutOfMemory` untouched). -/
theorem mutCapacity_unalloc_large {allocOk : Bool} {n c : Nat} {buf : List (Option Nat)}
    (h14 : ¬ n ≤ 14) :
    Shtick.mutCapacity allocOk n (.unalloc c buf) =
      (if allocOk = true then
        (if c ≤ n then
          some (.ok (), .onHeap c ⟨n, buf.take c ++ (Alloc.resizeData [] n).drop c⟩)
         else none)
       else some (.error (.Allocation .OutOfMemory), .unalloc c buf)) := by
  rw [Shtick.mutCapacity, if_neg h14, Alloc.mutCapacity]
  rw [if_neg (show ¬ n = 0 by omega)]
  rw [if_neg (show ¬ n = (Alloc.new : Alloc Nat).capacity by
    show ¬ n = 0
    omega)]
  by_cases hok : allocOk = true
  · rw [if_pos hok, if_pos hok]
    show (if c ≤ (Alloc.resizeData (Alloc.new : Alloc Nat).data n).length then _ else none) = _
    rw [show (Alloc.resizeData (Alloc.new : Alloc Nat).data n).length = n from resizeData_length _ _]
    rfl
  · rw [if_neg hok, if_neg hok]

/-- `mut_capacity` on a heap Shtick with an inline-sized target: truncate the
count to the target, copy that prefix inline (rest of the buffer is junk),
drop to Inline. -/
theorem mutCapacity_onHeap_small {allocOk : Bool} {n c : Nat} {a : Alloc Nat}
    (h : n ≤ 14) (hc : min c n ≤ a.data.length) :
    Shtick.mutCapacity allocOk n (.onHeap c a) =
      some (.ok (), .unalloc (min c n)
        (a.data.take (min c n) ++ List.replicate (14 - min c n) none)) := by
  rw [Shtick.mutCapacity, if_pos h, if_pos hc]

/-- `mut_capacity` on a heap Shtick with a heap-sized target: in-place
reallocation (no-op when the capacity already matches), truncating the count
when shrinking below it; untouched on `OutOfMemory`. -/
theorem mutCapacity_onHeap_large {allocOk : Bool} {n c : Nat} {a : Alloc Nat}
    (h14 : ¬ n ≤ 14) :
    Shtick.mutCapacity allocOk n (.onHeap c a) =
      (if n = a.capacity then some (.ok (), .onHeap (if n < c then n else c) a)
       else if allocOk = true then
         some (.ok (), .onHeap (if n < c then n else c) ⟨n, Alloc.resizeData a.data n⟩)
       else some (.error (.Allocation .OutOfMemory), .onHeap c a)) := by
  rw [Shtick.mutCapacity, if_neg h14, Alloc.mutCapacity]
  rw [if_neg (show ¬ n = 0 by omega)]
  by_cases he : n = a.capacity
  · rw [if_pos he, if_pos he]
  · rw [if_neg he, if_neg he]
    by_cases hok : allocOk = true
    · rw [if_pos hok, if_pos hok]
    · rw [if_neg hok, if_neg hok]

/-- The shape of every successful byte-slice construction with a willing
allocator: capacity sized to exactly fit (or the inline 14), bytes copied in,
count = input length. -/
theorem tryFromBytes_true_succeeds (bs : List Nat) (h : bs.length ≤ 32768) :
    Shtick.tryFromBytes true bs = some (.ok (
      if bs.length ≤ 14
      then .unalloc bs.length (writeAt (List.replicate 14 (some 0)) 0 bs)
      else .onHeap bs.length
        ⟨bs.length, writeAt (Alloc.resizeData [] bs.length) 0 bs⟩)) := by
  rw [Shtick.tryFromBytes, if_neg (by omega)]
  by_cases h14 : bs.length ≤ 14
  · rw [Shtick.new, mutCapacity_unalloc_small h14]
    rw [if_neg (show ¬ bs.length < 0 by omega)]
    show (if Shtick.capacity (.unalloc 0 (List.replicate 14 (some 0))) < bs.length
          then none else _) = _
    rw [show Shtick.capacity (.unalloc 0 (List.replicate 14 (some 0))) = 14 from rfl]
    rw [if_neg (by omega)]
    show (if bs.length ≤ 14 then _ else none) = _
    rw [if_pos h14, if_pos h14]
  · rw [Shtick.new, mutCapacity_unalloc_large h14]
    rw [if_pos rfl, if_pos (show (0 : Nat) ≤ bs.length from Nat.zero_le _)]
    show (if Shtick.capacity (.onHeap 0 ⟨bs.length,
        (List.replicate 14 (some 0)).take 0 ++ (Alloc.resizeData [] bs.length).drop 0⟩)
          < bs.length then none else _) = _
    rw [show Shtick.capacity (.onHeap 0 ⟨bs.length,
        (List.replicate 14 (some 0)).take 0 ++ (Alloc.resizeData [] bs.length).drop 0⟩)
      = bs.length from rfl]
    rw [if_neg (by omega)]
    show (if bs.length ≤ bs.length then _ else none) = _
    rw [if_pos (le_refl _), if_neg h14]
    rfl

/-- Projection used to state concrete construction results: the count of a
successfully constructed Shtick. -/
def tryCount (r : Option (Except ShtickError Shtick)) : Option Nat :=
  match r with
  | some (.ok s) => some s.count
  | _ => none

/-- C3 counterexample: a byte sequence of length `2^15 = 32768` — strictly
greater than `2^15 − 1` — is accepted (no `TooLarge`), producing a Shtick of
count 32768: the true cap is `Count16::MAX_USIZE = 2^15`, one more than the
claim's `2^15 − 1`. -/
theorem shtick_try_from_bytes_counterexample :
    32767 < (List.replicate 32768 (0 : Nat)).length ∧
    tryCount (Shtick.tryFromBytes true (List.replicate 32768 (0 : Nat))) = some 32768 := by
  have key : ∀ bs : List Nat, bs.length = 32768 →
      tryCount (Shtick.tryFromBytes true bs) = some 32768 := by
    intro bs hL
    rw [tryFromBytes_true_succeeds bs (by omega)]
    rw [if_neg (by omega)]
    rw [show tryCount (some (.ok (.onHeap bs.length
        ⟨bs.length, writeAt (Alloc.resizeData [] bs.length) 0 bs⟩)))
      = some bs.length from rfl]
    rw [hL]
  refine ⟨?_, key _ (List.length_replicate _ _)⟩
  rw [List.length_replicate]
  omega

/-- C3 (amended): constructing a Shtick from a byte sequence fails with
`TooLarge` exactly when the length is strictly greater than
`Count16::MAX_USIZE = 2^15 = 32768` (the negated-storage maximum, one more
than the claim's `2^15 − 1`); equivalently, no constructed Shtick ever holds
more than `2^15` bytes. -/
theorem shtick_try_from_bytes_too_large (bs : List Nat) (allocOk : Bool) :
    (32768 < bs.length → Shtick.tryFromBytes allocOk bs = some (.error .TooLarge)) ∧
    (bs.length ≤ 32768 → Shtick.tryFromBytes allocOk bs ≠ some (.error .TooLarge)) ∧
    (∀ s, Shtick.tryFromBytes allocOk bs = some (.ok s) → s.count ≤ 32768) := by
  refine ⟨?_, ?_, ?_⟩
  · intro h
    rw [Shtick.tryFromBytes, if_pos h]
  · intro h
    by_cases hok : allocOk = true
    · subst hok
      by_cases h14 : bs.length ≤ 14
      · rw [tryFromBytes_true_succeeds bs (by omega), if_pos h14]
        intro hc
        injection hc with hc'
        exact Except.noConfusion hc'
      · rw [tryFromBytes_true_succeeds bs (by omega), if_neg h14]
        intro hc
        injection hc with hc'
        exact Except.noConfusion hc'
    · rw [Shtick.tryFromBytes, if_neg (by omega)]
      by_cases h14 : bs.length ≤ 14
      · rw [Shtick.new, mutCapacity_unalloc_small h14, if_neg (by omega)]
        show (if Shtick.capacity (.unalloc 0 (List.replicate 14 (some 0))) < bs.length
              then none else _) ≠ _
        rw [show Shtick.capacity (.unalloc 0 (List.replicate 14 (some 0))) = 14 from rfl]
        rw [if_neg (by omega)]
        show (if bs.length ≤ 14 then _ else none) ≠ _
        rw [if_pos h14]
        intro hc
        injection hc with hc'
        exact Except.noConfusion hc'
      · rw [Shtick.new, mutCapacity_unalloc_large h14, if_neg hok]
        show some (Except.error (ShtickError.Allocation .OutOfMemory)) ≠
          some (.error .TooLarge)
        intro hc
        injection hc with hc'
        injection hc' with hc''
        exact ShtickError.noConfusion hc''
  · intro s hok
    by_cases hlen : 32768 < bs.length
    · rw [Shtick.tryFromBytes, if_pos hlen] at hok
      injection hok with hok'
      exact Except.noConfusion hok'
    · rw [Shtick.tryFromBytes, if_neg hlen] at hok
      rcases hmc : Shtick.mutCapacity allocOk bs.length Shtick.new with _ | ⟨rm, s1⟩
      · rw [hmc] at hok
        cases hok
      · rw [hmc] at hok
        cases rm with
        | error e =>
            simp only [] at hok
            injection hok with hok'
            exact Except.noConfusion hok'
        | ok u =>
            cases u
            simp only [] at hok
            by_cases hlow : s1.capacity < bs.length
            · rw [if_pos hlow] at hok
              cases hok
            · rw [if_neg hlow] at hok
              rcases s1 with ⟨c1, buf1⟩ | ⟨c1, a1⟩
              · simp only [] at hok
                by_cases h14 : bs.length ≤ 14
                · rw [if_pos h14] at hok
                  injection hok with hok'
                  injection hok' with hok''
                  subst hok''
                  show bs.length ≤ 32768
                  omega
                · rw [if_neg h14] at hok
                  cases hok
              · simp only [] at hok
                by_cases hfits : bs.length ≤ a1.capacity
                · rw [if_pos hfits] at hok
                  injection hok with hok'
                  injection hok' with hok''
                  subst hok''
                  show bs.length ≤ 32768
                  omega
                · rw [if_neg hfits] at hok
                  cases hok

/-- C3 witness: the 32769-byte boundary input is rejected with `TooLarge`,
and a small input is not. -/
theorem shtick_try_from_bytes_too_large_witness :
    Shtick.tryFromBytes true (List.replicate 32769 (0 : Nat)) =
      some (.error .TooLarge) ∧
    Shtick.tryFromBytes true (List.replicate 5 (7 : Nat)) ≠
      some (.error .TooLarge) := by
  constructor
  · exact (shtick_try_from_bytes_too_large (List.replicate 32769 (0 : Nat)) true).1
      (by rw [List.length_replicate]; omega)
  · exact (shtick_try_from_bytes_too_large (List.replicate 5 (7 : Nat)) true).2.1
      (by rw [List.length_replicate]; omega)

theorem shtickInv_new : ShtickInv Shtick.new := by
  refine ⟨⟨by omega, ?_⟩, ?_⟩
  · rw [List.length_replicate]
  · intro hx
    exact absurd hx (by decide)

/-- `Shtick::mut_capacity` preserves well-formedness and the heap-capacity
invariant, for any `Count16`-representable target. -/
theorem shtick_mutCapacity_inv {allocOk : Bool} {n : Nat} {s : Shtick}
    {r : Except ShtickError Unit} {s' : Shtick}
    (hInv : ShtickInv s) (hn : n ≤ 32768)
    (h : Shtick.mutCapacity allocOk n s = some (r, s')) : ShtickInv s' := by
  rcases s with ⟨c, buf⟩ | ⟨c, a⟩
  · obtain ⟨⟨hc14, hbl⟩, _⟩ := hInv
    by_cases h14 : n ≤ 14
    · rw [mutCapacity_unalloc_small h14] at h
      by_cases hnc : n < c
      · rw [if_pos hnc] at h
        injection h with h'
        injection h' with h1 h2
        subst h2
        exact ⟨⟨h14, hbl⟩, fun hx => Bool.noConfusion hx⟩
      · rw [if_neg hnc] at h
        injection h with h'
        injection h' with h1 h2
        subst h2
        exact ⟨⟨hc14, hbl⟩, fun hx => Bool.noConfusion hx⟩
    · rw [mutCapacity_unalloc_large h14] at h
      by_cases hok : allocOk = true
      · rw [if_pos hok, if_pos (show c ≤ n by omega)] at h
        injection h with h'
        injection h' with h1 h2
        subst h2
        refine ⟨⟨?_, ?_, ?_⟩, fun _ => ?_⟩
        · show c ≤ n
          omega
        · show (buf.take c ++ (Alloc.resizeData [] n).drop c).length = n
          rw [List.length_append, List.length_take, List.length_drop, resizeData_length]
          omega
        · show n ≤ 32768
          omega
        · show 14 < n
          omega
      · rw [if_neg hok] at h
        injection h with h'
        injection h' with h1 h2
        subst h2
        exact ⟨⟨hc14, hbl⟩, fun hx => Bool.noConfusion hx⟩
  · obtain ⟨⟨hca, hdl, hcb⟩, hheap⟩ := hInv
    have hcap : 14 < a.capacity := hheap rfl
    by_cases h14 : n ≤ 14
    · have hmin : min c n ≤ a.data.length := by omega
      rw [mutCapacity_onHeap_small h14 hmin] at h
      injection h with h'
      injection h' with h1 h2
      subst h2
      refine ⟨⟨by omega, ?_⟩, fun hx => Bool.noConfusion hx⟩
      show (a.data.take (min c n) ++ List.replicate (14 - min c n) none).length = 14
      rw [List.length_append, List.length_take, List.length_replicate]
      omega
    · rw [mutCapacity_onHeap_large h14] at h
      by_cases he : n = a.capacity
      · rw [if_pos he] at h
        by_cases hnc : n < c
        · rw [if_pos hnc] at h
          injection h with h'
          injection h' with h1 h2
          subst h2
          exact ⟨⟨by omega, hdl, hcb⟩, fun _ => hcap⟩
        · rw [if_neg hnc] at h
          injection h with h'
          injection h' with h1 h2
          subst h2
          exact ⟨⟨hca, hdl, hcb⟩, fun _ => hcap⟩
      · rw [if_neg he] at h
        by_cases hok : allocOk = true
        · rw [if_pos hok] at h
          by_cases hnc : n < c
          · rw [if_pos hnc] at h
            injection h with h'
            injection h' with h1 h2
            subst h2
            refine ⟨⟨?_, ?_, ?_⟩, fun _ => ?_⟩
            · show n ≤ n
              omega
            · show (Alloc.resizeData a.data n).length = n
              exact resizeData_length _ _
            · show n ≤ 32768
              omega
            · show 14 < n
              omega
          · rw [if_neg hnc] at h
            injection h with h'
            injection h' with h1 h2
            subst h2
            refine ⟨⟨?_, ?_, ?_⟩, fun _ => ?_⟩
            · show c ≤ n
              omega
            · show (Alloc.resizeData a.data n).length = n
              exact resizeData_length _ _
            · show n ≤ 32768
              omega
            · show 14 < n
              omega
        · rw [if_neg hok] at h
          injection h with h'
          injection h' with h1 h2
          subst h2
          exact ⟨⟨hca, hdl, hcb⟩, fun _ => hcap⟩

/-- The tail phase of `push` (bounds assert, byte write, count update)
preserves the invariant. -/
theorem shtick_push_write_inv {c : Nat} {u : List Nat} {s1 : Shtick}
    {r : Except ShtickError Unit} {s' : Shtick}
    (hInv1 : ShtickInv s1)
    (h : (if s1.capacity < c + u.length then none
          else
            match s1 with
            | .unalloc _ buf =>
                if c + u.length ≤ 14 then
                  some (.ok (), .unalloc (c + u.length) (writeAt buf c u))
                else none
            | .onHeap _ a =>
                if c + u.length ≤ a.capacity then
                  some (.ok (), .onHeap (c + u.length) ⟨a.capacity, writeAt a.data c u⟩)
                else none) = some (r, s')) :
    ShtickInv s' := by
  by_cases hlow : s1.capacity < c + u.length
  · rw [if_pos hlow] at h
    cases h
  · rw [if_neg hlow] at h
    rcases s1 with ⟨c1, buf⟩ | ⟨c1, a⟩
    · obtain ⟨⟨hc14, hbl⟩, _⟩ := hInv1
      simp only [] at h
      by_cases h14 : c + u.length ≤ 14
      · rw [if_pos h14] at h
        injection h with h'
        injection h' with h1 h2
        subst h2
        refine ⟨⟨h14, ?_⟩, fun hx => Bool.noConfusion hx⟩
        rw [writeAt_length (by omega)]
        exact hbl
      · rw [if_neg h14] at h
        cases h
    · obtain ⟨⟨hca, hdl, hcb⟩, hheap⟩ := hInv1
      have hcap : 14 < a.capacity := hheap rfl
      simp only [] at h
      by_cases hfits : c + u.length ≤ a.capacity
      · rw [if_pos hfits] at h
        injection h with h'
        injection h' with h1 h2
        subst h2
        refine ⟨⟨hfits, ?_, hcb⟩, fun _ => hcap⟩
        show (writeAt a.data c u).length = a.capacity
        rw [writeAt_length (by omega)]
        exact hdl
      · rw [if_neg hfits] at h
        cases h

/-- `Shtick::push` preserves well-formedness and the heap-capacity invariant. -/
theorem shtick_push_inv {allocOk : Bool} {u : List Nat} {s : Shtick}
    {r : Except ShtickError Unit} {s' : Shtick}
    (hInv : ShtickInv s) (h : Shtick.push allocOk u s = some (r, s')) : ShtickInv s' := by
  simp only [Shtick.push] at h
  by_cases hTL : 32768 < s.count + u.length
  · rw [if_pos hTL] at h
    injection h with h'
    injection h' with h1 h2
    subst h2
    exact hInv
  · rw [if_neg hTL] at h
    by_cases hge : s.capacity ≤ s.count + u.length
    · rw [if_pos hge] at h
      by_cases hal : s.isAllocated = false
      · rw [if_pos hal] at h
        rcases hm : Shtick.mutCapacity allocOk 32 s with _ | ⟨rm, s1⟩
        · rw [hm] at h
          cases h
        · rw [hm] at h
          have hInv1 := shtick_mutCapacity_inv hInv (by omega) hm
          cases rm with
          | error e =>
              simp only [] at h
              injection h with h'
              injection h' with h1 h2
              subst h2
              exact hInv1
          | ok uu =>
              cases uu
              simp only [] at h
              exact shtick_push_write_inv hInv1 h
      · rw [if_neg hal] at h
        by_cases hdl : s.capacity + s.capacity ≤ 32768
        · rw [if_pos hdl] at h
          rcases hm : Shtick.mutCapacity allocOk (s.capacity + s.capacity) s with _ | ⟨rm, s1⟩
          · rw [hm] at h
            cases h
          · rw [hm] at h
            have hInv1 := shtick_mutCapacity_inv hInv (by omega) hm
            cases rm with
            | error e =>
                simp only [] at h
                injection h with h'
                injection h' with h1 h2
                subst h2
                exact hInv1
            | ok uu =>
                cases uu
                simp only [] at h
                exact shtick_push_write_inv hInv1 h
        · rw [if_neg hdl] at h
          cases h
    · rw [if_neg hge] at h
      simp only [] at h
      exact shtick_push_write_inv hInv h

/-- Every successful byte-slice construction satisfies well-formedness and
the heap-capacity invariant. -/
theorem tryFromBytes_ok_inv {allocOk : Bool} {bs : List Nat} {s : Shtick}
    (h : Shtick.tryFromBytes allocOk bs = some (.ok s)) : ShtickInv s := by
  by_cases hlen : 32768 < bs.length
  · rw [Shtick.tryFromBytes, if_pos hlen] at h
    injection h with h'
    exact Except.noConfusion h'
  · rw [Shtick.tryFromBytes, if_neg hlen] at h
    rcases hmc : Shtick.mutCapacity allocOk bs.length Shtick.new with _ | ⟨rm, s1⟩
    · rw [hmc] at h
      cases h
    · rw [hmc] at h
      cases rm with
      | error e =>
          simp only [] at h
          injection h with h'
          exact Except.noConfusion h'
      | ok u =>
          cases u
          simp only [] at h
          have hInv1 := shtick_mutCapacity_inv shtickInv_new (by omega) hmc
          by_cases hlow : s1.capacity < bs.length
          · rw [if_pos hlow] at h
            cases h
          · rw [if_neg hlow] at h
            rcases s1 with ⟨c1, buf1⟩ | ⟨c1, a1⟩
            · obtain ⟨⟨hc14, hbl⟩, _⟩ := hInv1
              simp only [] at h
              by_cases h14 : bs.length ≤ 14
              · rw [if_pos h14] at h
                injection h with h'
                injection h' with h''
                subst h''
                refine ⟨⟨h14, ?_⟩, fun hx => Bool.noConfusion hx⟩
                rw [writeAt_length (by omega)]
                exact hbl
              · rw [if_neg h14] at h
                cases h
            · obtain ⟨⟨hca, hdla, hcb⟩, hheap⟩ := hInv1
              have hcap : 14 < a1.capacity := hheap rfl
              simp only [] at h
              by_cases hfits : bs.length ≤ a1.capacity
              · rw [if_pos hfits] at h
                injection h with h'
                injection h' with h''
                subst h''
                refine ⟨⟨hfits, ?_, hcb⟩, fun _ => hcap⟩
                show (writeAt a1.data 0 bs).length = a1.capacity
                rw [writeAt_length (by omega)]
                exact hdla
              · rw [if_neg hfits] at h
                cases h

/-! ### Sequences of public Shtick operations (for the C9 invariant) -/

/-- One public Shtick operation: `push` carries the pushed character's UTF-8
bytes, `mutCap` a `Count16` capacity argument; both carry the allocator's
answer. -/
inductive SOp where
  | push (allocOk : Bool) (u : List Nat)
  | mutCap (allocOk : Bool) (n : Nat)

/-- UTF-8 encodings of single chars are 1–4 bytes; capacity arguments are
`Count16` magnitudes, hence at most `2^15`. -/
def SOp.valid : SOp → Prop
  | .push _ u => 1 ≤ u.length ∧ u.length ≤ 4
  | .mutCap _ n => n ≤ 32768

def stepS : SOp → Shtick → Option Shtick
  | .push allocOk u, s => (Shtick.push allocOk u s).map Prod.snd
  | .mutCap allocOk n, s => (Shtick.mutCapacity allocOk n s).map Prod.snd

def runS : List SOp → Shtick → Option Shtick
  | [], s => some s
  | op :: ops, s =>
      match stepS op s with
      | none => none
      | some s' => runS ops s'

theorem stepS_inv {op : SOp} {s s' : Shtick}
    (hInv : ShtickInv s) (hv : op.valid) (h : stepS op s = some s') : ShtickInv s' := by
  cases op with
  | push allocOk u =>
      rw [stepS] at h
      obtain ⟨⟨r, s''⟩, hp, he⟩ := Option.map_eq_some'.mp h
      cases he
      exact shtick_push_inv hInv hp
  | mutCap allocOk n =>
      rw [stepS] at h
      obtain ⟨⟨r, s''⟩, hp, he⟩ := Option.map_eq_some'.mp h
      cases he
      exact shtick_mutCapacity_inv hInv hv hp

theorem runS_inv : ∀ {ops : List SOp} {s s' : Shtick}, (∀ op ∈ ops, op.valid) →
    ShtickInv s → runS ops s = some s' → ShtickInv s' := by
  intro ops
  induction ops with
  | nil =>
      intro s s' _ hInv h
      rw [runS] at h
      injection h with h1
      subst h1
      exact hInv
  | cons op rest ih =>
      intro s s' hv hInv h
      rw [runS] at h
      rcases hs : stepS op s with _ | s1
      · rw [hs] at h
        cases h
      · rw [hs] at h
        exact ih (fun o ho => hv o (List.mem_cons_of_mem _ ho))
          (stepS_inv hInv (hv op (List.mem_cons_self _ _)) hs) h

/-- C9: every Shtick reachable from `Shtick::new()` or a successful fallible
constructor through the public operations (push with 1–4-byte characters,
mut_capacity with `Count16` arguments), whenever heap-backed, has an
allocation capacity strictly greater than the inline threshold 14. -/
theorem shtick_heap_capacity_invariant (ops : List SOp)
    (hops : ∀ op ∈ ops, op.valid) (s₀ : Shtick)
    (h₀ : s₀ = Shtick.new ∨
      ∃ allocOk bs, Shtick.tryFromBytes allocOk bs = some (.ok s₀))
    (s : Shtick) (h : runS ops s₀ = some s) :
    s.isAllocated = true → 14 < s.capacity := by
  have hInv₀ : ShtickInv s₀ := by
    rcases h₀ with rfl | ⟨allocOk, bs, hc⟩
    · exact shtickInv_new
    · exact tryFromBytes_ok_inv hc
  exact (runS_inv hops hInv₀ h).2

/-- C9 witness: `new().mut_capacity(20)` yields a heap Shtick whose
allocation capacity 20 exceeds 14. -/
theorem shtick_heap_capacity_invariant_witness :
    14 < (.onHeap 0 ⟨20, List.replicate 20 none⟩ : Shtick).capacity :=
  shtick_heap_capacity_invariant [SOp.mutCap true 20]
    (by
      intro op hop
      simp only [List.mem_singleton] at hop
      subst hop
      show (20 : Nat) ≤ 32768
      omega)
    Shtick.new (Or.inl rfl) _ (by decide) rfl

theorem take_writeAt {l : List (Option Nat)} {start : Nat} {u : List Nat}
    (h : start ≤ l.length) :
    (writeAt l start u).take (start + u.length) = l.take start ++ u.map some := by
  rw [writeAt]
  have h1 : (l.take start ++ u.map some).length = start + u.length := by
    rw [List.length_append, List.length_take, List.length_map]
    omega
  rw [show start + u.length = (l.take start ++ u.map some).length from h1.symm]
  rw [List.take_left]

theorem take_resizeData {l : List (Option Nat)} {n k : Nat}
    (h1 : k ≤ l.length) (h2 : k ≤ n) :
    (Alloc.resizeData l n).take k = l.take k := by
  rw [Alloc.resizeData,
    List.take_append_of_le_length (by rw [List.length_take]; omega), List.take_take]
  congr 1
  omega

/-- C2 counterexample: on a 13-byte inline Shtick (capacity 14), pushing a
1-byte character makes the required length 14 — equal to, not strictly
exceeding, the capacity — yet the capacity changes to 32 (and the
representation switches to heap): the code grows on `needed ≥ capacity`, not
only on `needed > capacity`. -/
theorem shtick_push_growth_counterexample :
    Shtick.tryFromBytes true (List.replicate 13 (97 : Nat)) =
      some (.ok (.unalloc 13 (List.replicate 13 (some 97) ++ [some 0]))) ∧
    (Shtick.unalloc 13 (List.replicate 13 (some 97) ++ [some 0])).count + 1 =
      (Shtick.unalloc 13 (List.replicate 13 (some 97) ++ [some 0])).capacity ∧
    (Shtick.push true [97] (.unalloc 13 (List.replicate 13 (some 97) ++ [some 0]))).map
      (fun p => (p.2.capacity, p.2.isAllocated)) = some (32, true) := by
  decide

/-- C2 (amended): for every well-formed Shtick (heap capacity above the
inline threshold) and every char's UTF-8 bytes `u` (1–4 bytes), `push`:
* fails `TooLarge` whenever `count + |u|` exceeds the 16-bit count domain
  `2^15 = 32768`, leaving the Shtick untouched (this check runs first, on any
  well-formed Shtick);
* changes nothing about the capacity when `count + |u| < capacity`, appending
  the bytes at the tail and setting the count to the required length;
* grows exactly when `count + |u| ≥ capacity` (including equality, not only
  strict excess): to 32 on the first inline overflow and to double the
  capacity while heap-backed, propagating `OutOfMemory` untouched when the
  allocator refuses — provided the doubled target stays in the `Count16`
  domain, for the unchecked `capacity + capacity` i16 addition overflows and
  the (debug) build aborts instead of growing whenever `2·capacity > 2^15`
  (the final conjunct). -/
theorem shtick_push_spec (s : Shtick) (u : List Nat) (allocOk : Bool)
    (hwf : s.wf) (hheap : s.isAllocated = true → 14 < s.capacity)
    (hu1 : 1 ≤ u.length) (hu4 : u.length ≤ 4) :
    (32768 < s.count + u.length →
        Shtick.push allocOk u s = some (.error .TooLarge, s)) ∧
    (s.count + u.length ≤ 32768 → s.count + u.length < s.capacity →
        ∃ s', Shtick.push allocOk u s = some (.ok (), s') ∧
          s'.capacity = s.capacity ∧ s'.isAllocated = s.isAllocated ∧
          s'.count = s.count + u.length ∧ s'.bytes = s.bytes ++ u.map some) ∧
    (s.count + u.length ≤ 32768 → s.capacity ≤ s.count + u.length → allocOk = false →
        (s.isAllocated = true → s.capacity + s.capacity ≤ 32768) →
        Shtick.push allocOk u s = some (.error (.Allocation .OutOfMemory), s)) ∧
    (s.count + u.length ≤ 32768 → s.capacity ≤ s.count + u.length → allocOk = true →
        (s.isAllocated = true → s.capacity + s.capacity ≤ 32768) →
        ∃ s', Shtick.push allocOk u s = some (.ok (), s') ∧
          s'.isAllocated = true ∧
          s'.capacity = (if s.isAllocated = true then s.capacity + s.capacity else 32) ∧
          s'.count = s.count + u.length ∧ s'.bytes = s.bytes ++ u.map some) ∧
    (s.count + u.length ≤ 32768 → s.capacity ≤ s.count + u.length →
        s.isAllocated = true → 32768 < s.capacity + s.capacity →
        Shtick.push allocOk u s = none) := by
  rcases s with ⟨c, buf⟩ | ⟨c, a⟩
  · obtain ⟨hc14, hbl⟩ := hwf
    refine ⟨?_, ?_, ?_, ?_, ?_⟩
    · intro hTL
      simp only [Shtick.push]
      rw [if_pos hTL]
    · intro hle hlt
      simp only [Shtick.count, Shtick.capacity] at hle hlt
      refine ⟨.unalloc (c + u.length) (writeAt buf c u), ?_, rfl, rfl, rfl, ?_⟩
      · simp only [Shtick.push, Shtick.count, Shtick.capacity, Shtick.isAllocated]
        rw [if_neg (by omega), if_neg (by omega)]
        simp only [Shtick.capacity]
        rw [if_neg (by omega), if_pos (by omega)]
      · show (writeAt buf c u).take (c + u.length) = buf.take c ++ u.map some
        exact take_writeAt (by omega)
    · intro hle hge hok hrep
      subst hok
      simp only [Shtick.count, Shtick.capacity] at hle hge
      simp only [Shtick.push, Shtick.count, Shtick.capacity, Shtick.isAllocated]
      rw [if_neg (by omega), if_pos (by omega), if_pos trivial]
      rw [mutCapacity_unalloc_large (by omega)]
      rw [if_neg (by decide)]
    · intro hle hge hok hrep
      subst hok
      simp only [Shtick.count, Shtick.capacity] at hle hge
      refine ⟨.onHeap (c + u.length)
        ⟨32, writeAt (buf.take c ++ (Alloc.resizeData [] 32).drop c) c u⟩,
        ?_, rfl, ?_, rfl, ?_⟩
      · simp only [Shtick.push, Shtick.count, Shtick.capacity, Shtick.isAllocated]
        rw [if_neg (by omega), if_pos (by omega), if_pos trivial]
        rw [mutCapacity_unalloc_large (by omega), if_pos rfl, if_pos (by omega)]
        simp only [Shtick.capacity]
        rw [if_neg (by omega)]
        rw [if_pos (by omega)]
      · simp only [Shtick.isAllocated, Shtick.capacity]
        rw [if_neg (by decide)]
      · show (writeAt (buf.take c ++ (Alloc.resizeData [] 32).drop c) c u).take (c + u.length)
          = buf.take c ++ u.map some
        rw [take_writeAt (by
          rw [List.length_append, List.length_take, List.length_drop, resizeData_length]
          omega)]
        congr 1
        rw [List.take_append_of_le_length (by rw [List.length_take]; omega), List.take_take]
        congr 1
        omega
    · intro _ _ hal _
      exact Bool.noConfusion hal
  · obtain ⟨hca, hdl, hcb⟩ := hwf
    have hcap : 14 < a.capacity := hheap rfl
    refine ⟨?_, ?_, ?_, ?_, ?_⟩
    · intro hTL
      simp only [Shtick.push]
      rw [if_pos hTL]
    · intro hle hlt
      simp only [Shtick.count, Shtick.capacity] at hle hlt
      refine ⟨.onHeap (c + u.length) ⟨a.capacity, writeAt a.data c u⟩, ?_, rfl, rfl, rfl, ?_⟩
      · simp only [Shtick.push, Shtick.count, Shtick.capacity, Shtick.isAllocated]
        rw [if_neg (by omega), if_neg (by omega)]
        simp only [Shtick.capacity]
        rw [if_neg (by omega), if_pos (by omega)]
      · show (writeAt a.data c u).take (c + u.length) = a.data.take c ++ u.map some
        exact take_writeAt (by omega)
    · intro hle hge hok hrep
      subst hok
      have hrep2 : a.capacity + a.capacity ≤ 32768 := hrep rfl
      simp only [Shtick.count, Shtick.capacity] at hle hge
      simp only [Shtick.push, Shtick.count, Shtick.capacity, Shtick.isAllocated]
      rw [if_neg (by omega), if_pos (by omega), if_neg (by decide), if_pos hrep2]
      rw [mutCapacity_onHeap_large (by omega)]
      rw [if_neg (by omega), if_neg (by decide)]
    · intro hle hge hok hrep
      subst hok
      have hrep2 : a.capacity + a.capacity ≤ 32768 := hrep rfl
      simp only [Shtick.count, Shtick.capacity] at hle hge
      refine ⟨.onHeap (c + u.length)
        ⟨a.capacity + a.capacity, writeAt (Alloc.resizeData a.data (a.capacity + a.capacity)) c u⟩,
        ?_, rfl, ?_, rfl, ?_⟩
      · simp only [Shtick.push, Shtick.count, Shtick.capacity, Shtick.isAllocated]
        rw [if_neg (by omega), if_pos (by omega), if_neg (by decide), if_pos hrep2]
        rw [mutCapacity_onHeap_large (by omega)]
        rw [if_neg (by omega), if_pos rfl, if_neg (by omega)]
        simp only [Shtick.capacity]
        rw [if_neg (by omega)]
        rw [if_pos (by omega)]
      · simp only [Shtick.isAllocated, Shtick.capacity]
        rw [if_pos trivial]
      · show (writeAt (Alloc.resizeData a.data (a.capacity + a.capacity)) c u).take (c + u.length)
          = a.data.take c ++ u.map some
        rw [take_writeAt (by rw [resizeData_length]; omega)]
        congr 1
        exact take_resizeData (by omega) (by omega)
    · intro hle hge _ hbig
      simp only [Shtick.count, Shtick.capacity] at hle hge hbig
      simp only [Shtick.push, Shtick.count, Shtick.capacity, Shtick.isAllocated]
      rw [if_neg (by omega), if_pos (by omega), if_neg (by decide), if_neg (by omega)]

/-- C2 witness: pushing one 1-byte character onto a full 14-byte inline
Shtick succeeds, switching to heap with capacity 32 and count 15; and on a
full heap Shtick of 32766 bytes, pushing a 3-byte character fails `TooLarge`
(required length 32769 exceeds `2^15`), leaving the Shtick untouched. -/
theorem shtick_push_spec_witness :
    (Shtick.push true [63] (.unalloc 14 (List.replicate 14 (some 104)))).map
      (fun p => (p.1, p.2.isAllocated, p.2.capacity, p.2.count)) =
      some (.ok (), true, 32, 15) ∧
    Shtick.push true [63, 63, 63]
        (.onHeap 32766 ⟨32766, List.replicate 32766 (some 104)⟩) =
      some (.error .TooLarge, .onHeap 32766 ⟨32766, List.replicate 32766 (some 104)⟩) := by
  constructor
  · obtain ⟨s', hp, hal, hcap, hcnt, hb⟩ :=
      (shtick_push_spec (.unalloc 14 (List.replicate 14 (some 104))) [63] true
        (by exact ⟨le_refl _, List.length_replicate _ _⟩)
        (by intro hx; exact absurd hx (by decide))
        (by decide) (by decide)).2.2.2.1
        (by decide) (by decide) rfl
        (by intro hx; exact absurd hx (by decide))
    rw [hp]
    rw [if_neg (by decide)] at hcap
    have hcnt' : s'.count = 15 := hcnt
    rw [Option.map_some']
    rw [hal, hcap, hcnt']
  · exact (shtick_push_spec (.onHeap 32766 ⟨32766, List.replicate 32766 (some 104)⟩)
      [63, 63, 63] true
      (by exact ⟨le_refl _, List.length_replicate _ _, by show (32766 : Nat) ≤ 32768; omega⟩)
      (by intro _; show (14 : Nat) < 32766; omega)
      (by decide) (by decide)).1
      (by show (32768 : Nat) < 32766 + 3; omega)
